import Mathlib

/-!
# Verification of the `ecc-secp256k1` core against its specification

This file gives a shallow embedding, in Lean 4, of the Rust sources of the
`ecc-secp256k1` library (field arithmetic in `field.rs`, curve points in
`point.rs`, Jacobi symbols in `jacobi.rs`, key/signature logic in
`secp256k1.rs`, SHA-256 in `hash/sha2.rs`), and proves or refutes the frozen
claims about that code.

Rust `BigInt` values are modelled as `Int`; byte buffers as `List Nat`.
Rust `%` on `BigInt` is truncated remainder (`Int.tmod`); `mod_floor` is
floored remainder (`Int.emod`).  `BigInt::modpow` is modelled by a
fuel-driven binary exponentiation (`powMod`) so that concrete claims can be
evaluated by the kernel; the lemma `powMod_spec` ties it to `b ^ e % m`.
Rust panics (`unimplemented!`, failed `assert`s, `unwrap`s) are modelled by
`Option`/`ParseOutcome` results.
-/

/-- Binary modular exponentiation, structural in a fuel argument so that the
kernel can evaluate it.  `powModGo fuel b e m` computes `b ^ e % m` whenever
`e ≤ fuel`. -/
def powModGo : Nat → Nat → Nat → Nat → Nat
  | 0, _, _, m => 1 % m
  | fuel + 1, b, e, m =>
    if e = 0 then 1 % m
    else
      let r := powModGo fuel b (e / 2) m
      if e % 2 = 1 then r * r % m * b % m else r * r % m

/-- Model of `BigInt::modpow` on naturals: `powMod b e m = b ^ e % m`. -/
def powMod (b e m : Nat) : Nat := powModGo e (b % m) e m

theorem powModGo_spec (fuel : Nat) : ∀ e b m, e ≤ fuel →
    powModGo fuel b e m = b ^ e % m := by
  induction fuel with
  | zero =>
    intro e b m he
    have : e = 0 := Nat.le_zero.mp he
    subst this
    simp [powModGo]
  | succ fuel ih =>
    intro e b m he
    by_cases he0 : e = 0
    · subst he0; simp [powModGo]
    · have hdiv : e / 2 ≤ fuel := by
        have h2 : e / 2 < e := Nat.div_lt_self (Nat.pos_of_ne_zero he0) one_lt_two
        omega
      have hr := ih (e / 2) b m hdiv
      by_cases hpar : e % 2 = 1
      · have hsplit : e = e / 2 + e / 2 + 1 := by omega
        simp only [powModGo, if_neg he0, hr, if_pos hpar]
        conv_rhs => rw [hsplit, pow_succ, pow_add]
        rw [← Nat.mul_mod (b ^ (e / 2)) (b ^ (e / 2)) m, Nat.mod_mul_mod]
      · have hsplit : e = e / 2 + e / 2 := by omega
        simp only [powModGo, if_neg he0, hr, if_neg hpar]
        conv_rhs => rw [hsplit, pow_add]
        rw [← Nat.mul_mod]

theorem powMod_spec (b e m : Nat) : powMod b e m = b ^ e % m := by
  rw [powMod, powModGo_spec e e (b % m) m le_rfl, ← Nat.pow_mod]

namespace Ecc

/-! ## `field.rs`: `FieldElement` -/

/-- `FieldElement` from `field.rs`: `num` is the Rust `num: BigInt`, `modulo`
its modulus. -/
structure FieldElement where
  num : Int
  modulo : Int
deriving DecidableEq

namespace FieldElement

/-- `FieldElement::new`: store and reduce with `mod_floor` (`Int.emod`). -/
def new (num modulo : Int) : FieldElement := ⟨num % modulo, modulo⟩

/-- `FieldElement::infinity`: the `(0, modulo)` sentinel. -/
def infinity (modulo : Int) : FieldElement := ⟨0, modulo⟩

/-- `FieldElement::is_zero`. -/
def isZero (a : FieldElement) : Bool := a.num == 0

/-- `FieldElement::round_mod`: add the modulus once if the value is negative. -/
def roundMod (a : FieldElement) : FieldElement :=
  if a.num < 0 then ⟨a.num + a.modulo, a.modulo⟩ else a

/-- `FieldElement::mod_num`: reduce with `mod_floor`. -/
def modNum (a : FieldElement) : FieldElement := ⟨a.num % a.modulo, a.modulo⟩

/-- `FieldElement::reflect`: `num := modulo - num`. -/
def reflect (a : FieldElement) : FieldElement := ⟨a.modulo - a.num, a.modulo⟩

/-- `FieldElement::is_even` (`BigInt::is_even`). -/
def isEven (a : FieldElement) : Bool := a.num % 2 == 0

end FieldElement

/-- `mod_and_new` from `field.rs`: truncated remainder (Rust `%` on `BigInt`)
followed by `round_mod`. -/
def modAndNew (num modulo : Int) : FieldElement :=
  FieldElement.roundMod ⟨num.tmod modulo, modulo⟩

/-- `BigInt::modpow` for the nonnegative arguments used by the library. -/
def intModPow (b e m : Int) : Int :=
  (powMod (b % m).toNat e.toNat m.toNat : Nat)

namespace FieldElement

/-- `impl Add for FieldElement`: `(self.num + other.num) % modulo` then
`round_mod`. -/
def fadd (a b : FieldElement) : FieldElement :=
  roundMod ⟨(a.num + b.num).tmod a.modulo, a.modulo⟩

/-- `impl Sub for FieldElement`. -/
def fsub (a b : FieldElement) : FieldElement := modAndNew (a.num - b.num) a.modulo

/-- `impl Mul for FieldElement`. -/
def fmul (a b : FieldElement) : FieldElement := modAndNew (a.num * b.num) a.modulo

/-- `impl Div for FieldElement`: multiply by the Fermat inverse
`other.num.modpow(modulo - 2, modulo)`, then `round_mod`. -/
def fdiv (a b : FieldElement) : FieldElement :=
  roundMod (fmul a ⟨intModPow b.num (a.modulo - 2) a.modulo, a.modulo⟩)

/-- `FieldElement::pow_u`: `num.modpow(e, modulo)`. -/
def pow_u (a : FieldElement) (e : Int) : FieldElement :=
  ⟨intModPow a.num e a.modulo, a.modulo⟩

/-- `FieldElement::sqrt`: `num.modpow((modulo + 1) / 4, modulo)` (Rust `/` on
a positive `BigInt` is truncated division). -/
def fsqrt (a : FieldElement) : FieldElement :=
  ⟨intModPow a.num ((a.modulo + 1).tdiv 4) a.modulo, a.modulo⟩

/-- `BigInt * &FieldElement` (`mul_impl_field!`): `mod_and_new(num * c)`. -/
def bigMul (c : Int) (a : FieldElement) : FieldElement :=
  modAndNew (a.num * c) a.modulo

/-- `FieldElement + &BigInt` (`add_impl_field!`): convert via
`FieldElement::new` and add. -/
def faddBig (a : FieldElement) (c : Int) : FieldElement :=
  fadd a (new c a.modulo)

/-- `&BigInt - FieldElement` (`sub_impl_field!`): convert via
`FieldElement::new` and subtract. -/
def bigSub (c : Int) (a : FieldElement) : FieldElement :=
  fsub (new c a.modulo) a

end FieldElement

/-- `BigInt::from_bytes_be(Sign::Plus, ser)`. -/
def fromBytesBE (ser : List Nat) : Int :=
  ser.foldl (fun acc b => acc * 256 + (b : Int)) 0

/-- `FieldElement::from_serialize`: big-endian bytes, stored with NO
reduction modulo `modulo`. -/
def FieldElement.from_serialize (ser : List Nat) (modulo : Int) : FieldElement :=
  ⟨fromBytesBE ser, modulo⟩

/-- Big-endian fixed-width byte serialization (the zero-padded buffer built
by `serialize_num` and `PrivateKey::serialize`). -/
def toBytesBE : Nat → Nat → List Nat
  | 0, _ => []
  | k + 1, x => toBytesBE k (x / 256) ++ [x % 256]

/-- `FieldElement::serialize_num` on its reachable inputs
(`0 ≤ num < 2^256`, enforced by `assert`/`unimplemented` in the source). -/
def FieldElement.serialize_num (a : FieldElement) : List Nat :=
  toBytesBE 32 a.num.toNat

/-! ## `point.rs`: `Group` and `Point` -/

/-- `Group` from `point.rs`: the Weierstrass coefficients. -/
structure Group where
  a : Int
  b : Int
deriving DecidableEq

/-- `Point` from `point.rs`. -/
structure Point where
  x : FieldElement
  y : FieldElement
  group : Group
deriving DecidableEq

namespace Point

/-- `Point::gen_zero`: the `(0, 0)` sentinel point. -/
def genZero (P : Point) : Point :=
  ⟨FieldElement.new 0 P.x.modulo, FieldElement.new 0 P.x.modulo, P.group⟩

/-- `Point::is_on_curve`: `y² == x³ + a·x + b` via the `FieldElement`
operator chain of the source. -/
def isOnCurve (P : Point) : Bool :=
  P.y.pow_u 2 == (((P.x.pow_u 3).fadd (P.x.bigMul P.group.a)).faddBig P.group.b)

/-- `Point::is_on_infinity`: either coordinate equals the infinity
sentinel. -/
def isOnInfinity (P : Point) : Bool := P.x.num == 0 || P.y.num == 0

/-- `Point::get_slope`. -/
def getSlope (P Q : Point) : FieldElement :=
  if P.x ≠ Q.x then (P.y.fsub Q.y).fdiv (P.x.fsub Q.x)
  else (((P.x.pow_u 2).bigMul 3).faddBig P.group.a).fdiv (P.y.bigMul 2)

/-- `impl AddAssign<&Point> for Point` (the group-law addition of
`point.rs`), on operands of one group as enforced by `same_group`. -/
def addE (P Q : Point) : Point :=
  if P.x.num = 0 then Q
  else if Q.x.num = 0 then P
  else if (P.x = Q.x ∧ P.y ≠ Q.y) ∨ (P = Q ∧ P.y.num = 0) then
    ⟨FieldElement.infinity P.x.modulo, FieldElement.infinity P.x.modulo, P.group⟩
  else
    let m := getSlope P Q
    let x := ((m.pow_u 2).fsub P.x).fsub Q.x
    ⟨x, (m.fmul (P.x.fsub x)).fsub P.y, P.group⟩

/-- The `mul_impl_point!` double-and-add loop, structural in a fuel argument
(`fuel = k` suffices) so the kernel can evaluate it. -/
def mulGo : Nat → Nat → Point → Point → Point
  | 0, _, result, _ => result
  | fuel + 1, k, result, adding =>
    if k = 0 then result
    else
      mulGo fuel (k / 2) (if k % 2 = 1 then addE result adding else result)
        (addE adding adding)

/-- `BigInt * Point` (`mul_impl_point!`) for the nonnegative scalars used by
the library. -/
def mulE (k : Nat) (P : Point) : Point := mulGo k k (genZero P) P

end Point

/-! ## `hash/sha2.rs`: SHA-256 -/

/-- `u32::rotate_right` on 32-bit words. -/
def rotr32 (n x : Nat) : Nat := ((x >>> n) ||| (x <<< (32 - n))) % 4294967296

/-- `b_sigma0`. -/
def bSigma0 (x : Nat) : Nat := rotr32 2 x ^^^ rotr32 13 x ^^^ rotr32 22 x

/-- `b_sigma1`. -/
def bSigma1 (x : Nat) : Nat := rotr32 6 x ^^^ rotr32 11 x ^^^ rotr32 25 x

/-- `s_sigma0`. -/
def sSigma0 (x : Nat) : Nat := rotr32 7 x ^^^ rotr32 18 x ^^^ (x >>> 3)

/-- `s_sigma1`. -/
def sSigma1 (x : Nat) : Nat := rotr32 17 x ^^^ rotr32 19 x ^^^ (x >>> 10)

/-- `choose(x, y, z) = (x & y) ^ (!x & z)`. -/
def chooseBits (x y z : Nat) : Nat := (x &&& y) ^^^ ((x ^^^ 4294967295) &&& z)

/-- `majority(x, y, z) = (x & y) ^ (x & z) ^ (y & z)`. -/
def majorityBits (x y z : Nat) : Nat := (x &&& y) ^^^ (x &&& z) ^^^ (y &&& z)

/-- The SHA-256 round constants `K`. -/
def shaK : List Nat :=
  [1116352408, 1899447441, 3049323471, 3921009573, 961987163, 1508970993, 2453635748, 2870763221,
   3624381080, 310598401, 607225278, 1426881987, 1925078388, 2162078206, 2614888103, 3248222580,
   3835390401, 4022224774, 264347078, 604807628, 770255983, 1249150122, 1555081692, 1996064986,
   2554220882, 2821834349, 2952996808, 3210313671, 3336571891, 3584528711, 113926993, 338241895,
   666307205, 773529912, 1294757372, 1396182291, 1695183700, 1986661051, 2177026350, 2456956037,
   2730485921, 2820302411, 3259730800, 3345764771, 3516065817, 3600352804, 4094571909, 275423344,
   430227734, 506948616, 659060556, 883997877, 958139571, 1322822218, 1537002063, 1747873779,
   1955562222, 2024104815, 2227730452, 2361852424, 2428436474, 2756734187, 3204031479, 3329325298]

/-- `Vec64::to_data`: group bytes into big-endian 32-bit words. -/
def wordsOfBytes : List Nat → List Nat
  | b0 :: b1 :: b2 :: b3 :: rest =>
    (((b0 * 256 + b1) * 256 + b2) * 256 + b3) :: wordsOfBytes rest
  | _ => []

/-- The 64-entry message schedule: extend the 16 block words by 48 rounds of
`W[t] = σ₁(W[t-2]) + W[t-7] + σ₀(W[t-15]) + W[t-16]` (wrapping). -/
def extendW : Nat → List Nat → List Nat
  | 0, w => w
  | f + 1, w =>
    let t := w.length
    let nw := (sSigma1 (w.getD (t - 2) 0) + w.getD (t - 7) 0 +
      sSigma0 (w.getD (t - 15) 0) + w.getD (t - 16) 0) % 4294967296
    extendW f (w ++ [nw])

/-- One round of `Sha256::process_block` acting on the state
`[a, b, c, d, e, f, g, h]`. -/
def shaRound (st : List Nat) (kt wt : Nat) : List Nat :=
  match st with
  | [a, b, c, d, e, f, g, h] =>
    let t1 := (h + bSigma1 e + chooseBits e f g + kt + wt) % 4294967296
    let t2 := (bSigma0 a + majorityBits a b c) % 4294967296
    [(t1 + t2) % 4294967296, a, b, c, (d + t1) % 4294967296, e, f, g]
  | other => other

/-- `Sha256::process_block`. -/
def processBlock (h : List Nat) (block : List Nat) : List Nat :=
  let w := extendW 48 (wordsOfBytes block)
  let st := (List.zip shaK w).foldl (fun st kw => shaRound st kw.1 kw.2) h
  (List.zip h st).map (fun hs => (hs.1 + hs.2) % 4294967296)

/-- The Merkle–Damgård padding of `finalize_internal`: `128`, zeros to 56
mod 64, then the 64-bit big-endian bit length. -/
def sha256Pad (msg : List Nat) : List Nat :=
  msg ++ [128] ++ List.replicate ((55 + 64 - msg.length % 64) % 64) 0 ++
    toBytesBE 8 (8 * msg.length)

/-- Split a byte list into 64-byte blocks (structural in a fuel argument,
`fuel = l.length` suffices). -/
def chunks64Go : Nat → List Nat → List (List Nat)
  | 0, _ => []
  | fuel + 1, l => if l = [] then [] else (l.take 64) :: chunks64Go fuel (l.drop 64)

/-- Split a byte list into 64-byte blocks. -/
def chunks64 (l : List Nat) : List (List Nat) := chunks64Go l.length l

/-- The SHA-256 digest of a byte string, as computed by `Sha256`
(`input` then `finalize`): 32 bytes. -/
def sha256 (msg : List Nat) : List Nat :=
  let h0 : List Nat := [1779033703, 3144134277, 1013904242, 2773480762,
    1359893119, 2600822924, 528734635, 1541459225]
  let final := (chunks64 (sha256Pad msg)).foldl processBlock h0
  final.foldr (fun w acc => toBytesBE 4 w ++ acc) []

/-! ## `jacobi.rs`: the Jacobi symbol -/

/-- The `Jacobi` enum. -/
inductive Jacobi
  | Zero
  | One
  | MinusOne
deriving DecidableEq

/-- `Jacobi::flip`. -/
def Jacobi.flip : Jacobi → Jacobi
  | One => MinusOne
  | MinusOne => One
  | Zero => Zero

/-- `i8::from(Jacobi)`. -/
def Jacobi.toInt : Jacobi → Int
  | One => 1
  | MinusOne => -1
  | Zero => 0

/-- The inner `while numerator.is_even()` loop of `jacobi_symbol`: strip
factors of two, flipping the accumulator when `denominator % 8 ∈ {3, 5}`.
(The source loop diverges on `numerator = 0`; the outer loop only enters it
with a non-zero numerator.) -/
def stripTwos (num den : Nat) (res : Jacobi) : Nat × Jacobi :=
  if h : num ≠ 0 ∧ num % 2 = 0 then
    let res := if den % 8 = 3 ∨ den % 8 = 5 then res.flip else res
    stripTwos (num / 2) den res
  else (num, res)
termination_by num
decreasing_by exact Nat.div_lt_self (Nat.pos_of_ne_zero h.1) one_lt_two

theorem stripTwos_fst_le (num den : Nat) (res : Jacobi) :
    (stripTwos num den res).1 ≤ num := by
  induction num using Nat.strong_induction_on generalizing res with
  | _ num ih =>
    rw [stripTwos]
    by_cases h : num ≠ 0 ∧ num % 2 = 0
    · simp only [dif_pos h]
      have hlt : num / 2 < num := Nat.div_lt_self (Nat.pos_of_ne_zero h.1) one_lt_two
      exact le_trans (ih (num / 2) hlt _) (le_of_lt hlt)
    · simp [dif_neg h]

theorem stripTwos_fst_pos (num den : Nat) (res : Jacobi) (hn : num ≠ 0) :
    0 < (stripTwos num den res).1 := by
  induction num using Nat.strong_induction_on generalizing res with
  | _ num ih =>
    rw [stripTwos]
    by_cases h : num ≠ 0 ∧ num % 2 = 0
    · simp only [dif_pos h]
      have hlt : num / 2 < num := Nat.div_lt_self (Nat.pos_of_ne_zero h.1) one_lt_two
      exact ih (num / 2) hlt _ (by omega)
    · simp only [dif_neg h]
      exact Nat.pos_of_ne_zero hn

/-- The outer loop of `jacobi_symbol`: strip twos, swap via reciprocity
(flipping when both residues are `3 mod 4`), then reduce. -/
def jacLoop (num den : Nat) (res : Jacobi) : Jacobi :=
  if hn : num = 0 then (if den = 1 then res else .Zero)
  else
    let sm := stripTwos num den res
    let res2 := if den % 4 = 3 ∧ sm.1 % 4 = 3 then sm.2.flip else sm.2
    jacLoop (den % sm.1) sm.1 res2
termination_by num
decreasing_by
  have h1 : 0 < (stripTwos num den res).1 := stripTwos_fst_pos num den res hn
  have h2 : (stripTwos num den res).1 ≤ num := stripTwos_fst_le num den res
  have h3 : den % (stripTwos num den res).1 < (stripTwos num den res).1 :=
    Nat.mod_lt den h1
  omega

/-- `jacobi_symbol` from `jacobi.rs` (non-negative numerator, as used by the
library). -/
def jacobi_symbol (num den : Nat) : Jacobi := jacLoop num den .One

/-! ## `secp256k1.rs`: context, keys, signatures -/

/-- The field modulus `p` of secp256k1 (`Secp256k1::p`). -/
def pMod : Int := 115792089237316195423570985008687907853269984665640564039457584007908834671663

/-- The group order `n` of secp256k1 (`Secp256k1::n`). -/
def nOrder : Int := 115792089237316195423570985008687907852837564279074904382605163141518161494337

/-- `Secp256k1::Gx`. -/
def secpGx : Int := 55066263022277343669578718895168534326250603453777594175500187360389116729240

/-- `Secp256k1::Gy`. -/
def secpGy : Int := 32670510020758816978083085130507043184471273380659243275938904335757337482424

/-- The curve coefficients `a = 0`, `b = 7` of `Secp256k1::new`. -/
def secpGroup : Group := ⟨0, 7⟩

/-- The `Secp256k1` context record. -/
structure Secp256k1 where
  modulo : Int
  order : Int
  generator : Point

/-- The context built once by `Secp256k1::new` and returned by
`get_context()`. -/
def secp : Secp256k1 :=
  { modulo := pMod
    order := nOrder
    generator :=
      ⟨FieldElement.new secpGx pMod, FieldElement.new secpGy pMod, secpGroup⟩ }

/-- `PrivateKey::generate_pubkey`: `scalar · G` (the library stores any
`BigInt` scalar; key generation uses the nonnegative scalars modelled
here). -/
def generate_pubkey (scalar : Nat) : Point := Point.mulE scalar secp.generator

/-- `PublicKey::verify_raw` from `secp256k1.rs`:
`u1 = z/s`, `u2 = r/s`, `point = u1·G + u2·pubkey`, accept iff
`point.x.num == r.num`. -/
def verify_raw (pubkey : Point) (z r s : FieldElement) : Bool :=
  let u1 := z.fdiv s
  let u2 := r.fdiv s
  let point := Point.addE (Point.mulE u1.num.toNat secp.generator)
    (Point.mulE u2.num.toNat pubkey)
  point.x.num == r.num

/-- The `point = u1·G + u2·Pubkey` computed inside `verify_raw`. -/
def verifyPoint (pubkey : Point) (z r s : FieldElement) : Point :=
  Point.addE (Point.mulE (z.fdiv s).num.toNat secp.generator)
    (Point.mulE (r.fdiv s).num.toNat pubkey)

/-- `PublicKey::verify` on an already-hashed 32-byte message
(`to_hash = false`): read `z`, `r`, `s` with `from_serialize` over the group
order and call `verify_raw`. -/
def verify (pubkey : Point) (msgHash sigR sigS : List Nat) : Bool :=
  let z := FieldElement.from_serialize msgHash secp.order
  let r := FieldElement.from_serialize sigR secp.order
  let s := FieldElement.from_serialize sigS secp.order
  verify_raw pubkey z r s

/-- The `r` computed by `PrivateKey::sign_raw`: take `x` of `k·G`, switch
its modulus to the group order, `mod_num().round_mod()`. -/
def signR (k : FieldElement) : FieldElement :=
  FieldElement.roundMod (FieldElement.modNum
    ⟨(Point.mulE k.num.toNat secp.generator).x.num, secp.order⟩)

/-- The pre-normalization `s = (z + r·d) / k` computed by
`PrivateKey::sign_raw`. -/
def signS0 (d : Int) (k z : FieldElement) : FieldElement :=
  (z.fadd ((signR k).bigMul d)).fdiv k

/-- `PrivateKey::sign_raw`: `r = (k·G).x mod n`, `s = (z + r·d)/k`
low-half-normalized; the `r/s = 0` case is the `unimplemented!()` panic,
modelled as `none`.  Returns the `Signature::new` byte pair. -/
def sign_raw (d : Int) (k z : FieldElement) : Option (List Nat × List Nat) :=
  let r := signR k
  let s0 := signS0 d k z
  let s := if nOrder.tdiv 2 < s0.num then FieldElement.bigSub nOrder s0 else s0
  if r.isZero || s.isZero then none
  else some (r.serialize_num, s.serialize_num)

/-- `PublicKey::verify_schnorr_raw`: `R = s·G + (reflect e)·pubkey`; reject
on the infinity sentinel or a Jacobi symbol other than `One`; accept iff
`R.x.num == r.num`. -/
def verify_schnorr_raw (pubkey : Point) (e r s : FieldElement) : Bool :=
  let e2 := e.reflect
  let R := Point.addE (Point.mulE s.num.toNat secp.generator)
    (Point.mulE e2.num.toNat pubkey)
  if R.isOnInfinity then false
  else if jacobi_symbol R.y.num.toNat pMod.toNat ≠ Jacobi.One then false
  else R.x.num == r.num

/-- `PublicKey::compressed`: parity prefix (`2` even / `3` odd `y`)
followed by the 32-byte `x`. -/
def compressed (pubkey : Point) : List Nat :=
  (if pubkey.y.isEven then 2 else 3) :: pubkey.x.serialize_num

/-- `PublicKey::uncompressed`: `4`, 32-byte `x`, 32-byte `y`. -/
def uncompressed (pubkey : Point) : List Nat :=
  4 :: (pubkey.x.serialize_num ++ pubkey.y.serialize_num)

/-- `PrivateKey::ecdh`: `point = scalar · pubkey`, then
`SHA256(parity byte ‖ x)`. -/
def ecdh (scalar : Nat) (pubkey : Point) : List Nat :=
  let point := Point.mulE scalar pubkey
  let x := point.x.serialize_num
  let y : Nat := if point.y.isEven then 2 else 3
  sha256 (y :: x)

/-- Outcome of a fallible parsing entry point: a value, a typed error
(`Result::Err`), or a Rust panic (`unimplemented!`, slice-index or
`assert`/`unwrap` failure). -/
inductive ParseOutcome (α : Type)
  | ok (val : α)
  | err (msg : String)
  | panicked
deriving DecidableEq

/-- `Group::get_y`: `sqrt(x³ + a·x + b)`. -/
def Group.getY (g : Group) (x : FieldElement) : FieldElement :=
  (((x.pow_u 3).fadd (x.bigMul g.a)).faddBig g.b).fsqrt

/-- `PublicKey::from_uncompressed`: prefix `4` and on-curve check both
fail with `unimplemented!()` (a panic, not a typed error); out-of-bounds
slicing of short buffers also panics. -/
def from_uncompressed (ser : List Nat) : ParseOutcome Point :=
  match ser with
  | [] => .panicked
  | b0 :: _ =>
    if b0 ≠ 4 then .panicked
    else if ser.length < 65 then .panicked
    else
      let x := FieldElement.from_serialize ((ser.drop 1).take 32) secp.modulo
      let y := FieldElement.from_serialize ((ser.drop 33).take 32) secp.modulo
      let point : Point := ⟨x, y, secpGroup⟩
      if point.isOnCurve then .ok point else .panicked

/-- `PublicKey::from_compressed`: recompute `y` from `x`, choose the parity
according to the prefix, and return typed `Err` values on a bad prefix or an
off-curve result. -/
def from_compressed (ser : List Nat) : ParseOutcome Point :=
  if ser.length < 33 then .panicked
  else
    let b0 := ser.headD 0
    let x := FieldElement.from_serialize ((ser.drop 1).take 32) secp.modulo
    let y0 := secpGroup.getY x
    let y := if (b0 = 2 ∧ ¬ y0.isEven = true) ∨ (b0 = 3 ∧ y0.isEven = true)
      then y0.reflect else y0
    if b0 ≠ 2 ∧ b0 ≠ 3 then
      .err "A compressed public key should start with 2/3"
    else
      let point : Point := ⟨x, y, secpGroup⟩
      if point.isOnCurve then .ok point
      else .err "The public key is not on the point"

/-- Read exactly `k` bytes (`Read::read_exact`): `none` models the
`unwrap`ped I/O error on exhausted input. -/
def readN (k : Nat) (l : List Nat) : Option (List Nat × List Nat) :=
  if l.length < k then none else some (l.take k, l.drop k)

/-- One `INTEGER` of `Signature::parse_der`: marker `2`, length byte
(`33` forces a leading-zero check; more than `33` underflows the
`32 - length` slice bound, a panic), then the value bytes zero-padded into a
32-byte buffer.  Returns the raw length field for the final size check. -/
def readIntDER (l : List Nat) : Option (Nat × List Nat × List Nat) :=
  match l with
  | m :: len :: rest =>
    if m ≠ 2 then none
    else if len = 33 then
      match rest with
      | b :: rest2 =>
        if b ≠ 0 then none
        else
          match readN 32 rest2 with
          | some (bytes, rem) => some (33, bytes, rem)
          | none => none
      | [] => none
    else if len ≤ 32 then
      match readN len rest with
      | some (bytes, rem) => some (len, List.replicate (32 - len) 0 ++ bytes, rem)
      | none => none
    else none
  | _ => none

/-- `Signature::parse_der`: `48`, total length, two DER integers, then the
`data_length == sum_size` check; every failure is a panic
(`unimplemented!()` / failed `assert`). -/
def parse_der (sig : List Nat) : ParseOutcome (List Nat × List Nat) :=
  match sig with
  | b0 :: dl :: rest =>
    if b0 ≠ 48 then .panicked
    else
      (match readIntDER rest with
       | some (rlen, r, rest2) =>
         (match readIntDER rest2 with
          | some (slen, s, _) =>
            if dl = 4 + rlen + slen then .ok (r, s) else .panicked
          | none => .panicked)
       | none => .panicked)
  | _ => .panicked

/-- The trimming step of `serialize_der`: position of the first non-zero
byte in the zero-extended 33-byte buffer (an all-zero buffer panics the
`unwrap`), stepping one byte back when the leading byte has its high bit
set. -/
def derTrim (a33 : List Nat) : Option (List Nat) :=
  match a33.dropWhile (fun x => x == 0) with
  | [] => none
  | h :: t => some (if 128 ≤ h then 0 :: h :: t else h :: t)

/-- `Signature::serialize_der`: `SEQUENCE { INTEGER r, INTEGER s }` with the
source's byte-push sequence. -/
def serialize_der (r s : List Nat) : Option (List Nat) :=
  match derTrim (0 :: r), derTrim (0 :: s) with
  | some rt, some st =>
    some ([48, rt.length + st.length + 4, 2, rt.length] ++ rt ++
      ([2, st.length] ++ st))
  | _, _ => none


/-! ## Arithmetic bridge lemmas -/

theorem tmod_neg_left (a b : Int) : (-a).tmod b = -(a.tmod b) := by
  cases a with
  | ofNat m =>
    cases m with
    | zero => simp
    | succ k => cases b with
      | ofNat n => rfl
      | negSucc n => rfl
  | negSucc m => cases b with
    | ofNat n =>
      show (Int.ofNat (m + 1)).tmod _ = _
      simp [Int.tmod]
    | negSucc n =>
      show (Int.ofNat (m + 1)).tmod _ = _
      simp [Int.tmod]

theorem tmod_lower (x m : Int) (hm : 0 < m) : -m < x.tmod m := by
  have h := Int.tmod_lt_of_pos (-x) hm
  rw [tmod_neg_left] at h
  omega

theorem tmod_emod (x m : Int) : x.tmod m % m = x % m := by
  conv_rhs => rw [← Int.tmod_add_tdiv x m]
  rw [Int.add_mul_emod_self_left]

theorem modAndNew_eq (x m : Int) (hm : 0 < m) :
    modAndNew x m = ⟨x % m, m⟩ := by
  unfold modAndNew FieldElement.roundMod
  have hup : x.tmod m < m := Int.tmod_lt_of_pos x hm
  have hlo : -m < x.tmod m := tmod_lower x m hm
  have he : x.tmod m % m = x % m := tmod_emod x m
  by_cases h : x.tmod m < 0
  · simp only [if_pos h, FieldElement.mk.injEq, and_true]
    have h1 : (x.tmod m + m * 1) % m = x.tmod m % m :=
      Int.add_mul_emod_self_left (x.tmod m) m 1
    rw [mul_one] at h1
    rw [← he, ← h1, Int.emod_eq_of_lt (by omega) (by omega)]
  · simp only [if_neg h, FieldElement.mk.injEq, and_true]
    push_neg at h
    rw [← he, Int.emod_eq_of_lt h hup]

/-- Normal form of a `FieldElement`: the invariant claimed by the spec. -/
def FieldElement.normalized (a : FieldElement) : Prop :=
  0 ≤ a.num ∧ a.num < a.modulo

theorem fadd_eq (a b : FieldElement) (hm : 0 < a.modulo) :
    a.fadd b = ⟨(a.num + b.num) % a.modulo, a.modulo⟩ :=
  modAndNew_eq (a.num + b.num) a.modulo hm

theorem fsub_eq (a b : FieldElement) (hm : 0 < a.modulo) :
    a.fsub b = ⟨(a.num - b.num) % a.modulo, a.modulo⟩ :=
  modAndNew_eq (a.num - b.num) a.modulo hm

theorem fmul_eq (a b : FieldElement) (hm : 0 < a.modulo) :
    a.fmul b = ⟨(a.num * b.num) % a.modulo, a.modulo⟩ :=
  modAndNew_eq (a.num * b.num) a.modulo hm

theorem bigMul_eq (c : Int) (a : FieldElement) (hm : 0 < a.modulo) :
    a.bigMul c = ⟨(a.num * c) % a.modulo, a.modulo⟩ :=
  modAndNew_eq (a.num * c) a.modulo hm

theorem intModPow_eq (b e m : Int) (hm : 0 < m) (he : 0 ≤ e) :
    intModPow b e m = b ^ e.toNat % m := by
  unfold intModPow
  rw [powMod_spec]
  have hm0 : m ≠ 0 := by omega
  have h1 : ((b % m).toNat : Int) = b % m :=
    Int.toNat_of_nonneg (Int.emod_nonneg b hm0)
  have h2 : ((m.toNat : Int)) = m := Int.toNat_of_nonneg (by omega)
  push_cast
  rw [h1, h2]
  have hcong : (b % m) % m = b % m := Int.emod_emod_of_dvd b dvd_rfl
  exact (Int.ModEq.pow e.toNat hcong :)

theorem pow_u_eq (a : FieldElement) (e : Int) (hm : 0 < a.modulo) (he : 0 ≤ e) :
    a.pow_u e = ⟨a.num ^ e.toNat % a.modulo, a.modulo⟩ := by
  unfold FieldElement.pow_u
  rw [intModPow_eq a.num e a.modulo hm he]

theorem roundMod_id (a : FieldElement) (h : 0 ≤ a.num) :
    a.roundMod = a := by
  unfold FieldElement.roundMod
  rw [if_neg (by omega)]

theorem fdiv_eq (a b : FieldElement) (hm : 2 ≤ a.modulo) :
    a.fdiv b =
      ⟨a.num * b.num ^ (a.modulo - 2).toNat % a.modulo, a.modulo⟩ := by
  have hm0 : 0 < a.modulo := by omega
  unfold FieldElement.fdiv
  rw [intModPow_eq b.num (a.modulo - 2) a.modulo hm0 (by omega)]
  rw [fmul_eq _ _ hm0]
  rw [roundMod_id _ (Int.emod_nonneg _ (by omega))]
  simp only [FieldElement.mk.injEq, and_true]
  conv_rhs => rw [Int.mul_emod]
  rw [Int.mul_emod a.num, Int.emod_emod_of_dvd _ dvd_rfl]

theorem modAndNew_normalized (x m : Int) (hm : 0 < m) :
    (modAndNew x m).normalized := by
  rw [modAndNew_eq x m hm]
  exact ⟨Int.emod_nonneg x (by omega), Int.emod_lt_of_pos x hm⟩

theorem new_normalized (x m : Int) (hm : 0 < m) :
    (FieldElement.new x m).normalized :=
  ⟨Int.emod_nonneg x (by omega), Int.emod_lt_of_pos x hm⟩


theorem fromBytesBE_foldl_nonneg (ser : List Nat) :
    ∀ acc : Int, 0 ≤ acc →
      0 ≤ ser.foldl (fun acc b => acc * 256 + (b : Int)) acc := by
  induction ser with
  | nil => intro acc h; exact h
  | cons b rest ih =>
    intro acc h
    exact ih _ (by positivity)

theorem fromBytesBE_nonneg (ser : List Nat) : 0 ≤ fromBytesBE ser :=
  fromBytesBE_foldl_nonneg ser 0 le_rfl

/-! ## Claim C4 -/

/-- C4 (counterexample): `from_serialize` is a public constructor, yet the
32-byte all-`255` buffer parses over the secp256k1 field modulus to a
`FieldElement` whose `num` (`2^256 - 1`) is NOT below its modulus: the
claimed invariant `0 ≤ num < modulo` fails for `from_serialize`. -/
theorem claim_C4_counterexample :
    ¬ ((FieldElement.from_serialize (List.replicate 32 255) pMod).num <
        (FieldElement.from_serialize (List.replicate 32 255) pMod).modulo) := by
  decide

/-- C4 (amended): every `FieldElement` produced by `FieldElement::new` or by
the arithmetic operations `add`, `sub`, `mul`, `div`, `pow` over a positive
modulus is normalized (`0 ≤ num < modulo`); `from_serialize`, by contrast,
only guarantees `0 ≤ num` — it stores the raw big-endian value without
reduction. -/
theorem claim_C4 (x e m : Int) (a b : FieldElement) (ser : List Nat)
    (hm : 0 < m) (ha : a.modulo = m) (hb : b.modulo = m) (he : 0 ≤ e) :
    (FieldElement.new x m).normalized ∧
    (a.fadd b).normalized ∧
    (a.fsub b).normalized ∧
    (a.fmul b).normalized ∧
    (a.fdiv b).normalized ∧
    (a.pow_u e).normalized ∧
    0 ≤ (FieldElement.from_serialize ser m).num := by
  have hm0 : (0:Int) < a.modulo := ha ▸ hm
  refine ⟨new_normalized x m hm, ?_, ?_, ?_, ?_, ?_, ?_⟩
  · exact modAndNew_normalized _ _ hm0
  · exact modAndNew_normalized _ _ hm0
  · exact modAndNew_normalized _ _ hm0
  · have h := modAndNew_normalized
      (a.num * (⟨intModPow b.num (a.modulo - 2) a.modulo, a.modulo⟩ :
        FieldElement).num) a.modulo hm0
    unfold FieldElement.fdiv FieldElement.fmul
    rw [roundMod_id _ h.1]
    exact h
  · rw [pow_u_eq a e hm0 he]
    exact ⟨Int.emod_nonneg _ (by omega), Int.emod_lt_of_pos _ hm0⟩
  · exact fromBytesBE_nonneg ser

/-- C4 (witness): the amended statement instantiated at modulus `3`. -/
theorem claim_C4_witness :
    (0:Int) < 3 ∧
    ((FieldElement.new 5 3).normalized ∧
     ((⟨1, 3⟩ : FieldElement).fadd ⟨2, 3⟩).normalized ∧
     ((⟨1, 3⟩ : FieldElement).fsub ⟨2, 3⟩).normalized ∧
     ((⟨1, 3⟩ : FieldElement).fmul ⟨2, 3⟩).normalized ∧
     ((⟨1, 3⟩ : FieldElement).fdiv ⟨2, 3⟩).normalized ∧
     ((⟨1, 3⟩ : FieldElement).pow_u 2).normalized ∧
     0 ≤ (FieldElement.from_serialize [7] 3).num) :=
  ⟨by decide,
   claim_C4 5 2 3 ⟨1, 3⟩ ⟨2, 3⟩ [7] (by decide) rfl rfl (by decide)⟩

/-! ## Claim C10 -/

/-- C10 (counterexample): over the prime modulus `2`, dividing the element
`1` by the zero element returns `1`, not the zero element — the Fermat
exponent is `2 - 2 = 0` and `0^0 mod 2 = 1`, so the claimed
"always returns zero" fails at modulus 2. -/
theorem claim_C10_counterexample :
    Nat.Prime 2 ∧
    ((⟨1, 2⟩ : FieldElement).fdiv ⟨0, 2⟩).num = 1 := by
  constructor
  · decide
  · decide

/-- C10 (amended): over a prime modulus other than `2`, division by the zero
element is total: it silently evaluates (no divide-by-zero is signalled) and
returns the zero element, since the Fermat inverse is
`0^(modulo-2) mod modulo = 0`. -/
theorem claim_C10 (a b : FieldElement) (m : Int)
    (hp : m.toNat.Prime) (hm2 : m ≠ 2)
    (ha : a.modulo = m) (hb : b.modulo = m) (hbz : b.num = 0) :
    a.fdiv b = ⟨0, m⟩ := by
  have h2 : 2 ≤ m.toNat := hp.two_le
  have hmpos : 0 < m := by
    rcases Int.lt_or_le m 1 with h | h
    · exfalso
      have : m.toNat = 0 ∨ m.toNat = 1 := by omega
      rcases this with h0 | h0 <;> omega
    · omega
  have hm3 : 3 ≤ m := by omega
  rw [fdiv_eq a b (by omega), hbz, ha]
  have hk : 1 ≤ (m - 2).toNat := by omega
  rw [zero_pow (by omega), mul_zero]
  simp

/-- C10 (witness): division of `1` by the zero element over the prime
modulus `3` yields the zero element. -/
theorem claim_C10_witness :
    (Nat.Prime ((3:Int).toNat) ∧ (3:Int) ≠ 2) ∧
    ((⟨1, 3⟩ : FieldElement).fdiv ⟨0, 3⟩ = ⟨0, 3⟩) :=
  ⟨⟨by decide, by decide⟩,
   claim_C10 ⟨1, 3⟩ ⟨0, 3⟩ 3 (by decide) (by decide) rfl rfl rfl⟩

/-! ## Claim C5 -/

/-- C5: malformed external input and the library's response.
`from_uncompressed` on a 65-byte buffer with a bad prefix byte (`5`) or
with off-curve coordinates panics (`unimplemented!()`), and `parse_der` on a
truncated DER buffer panics, instead of returning the typed recoverable
failure promised by the spec and by the FFI return-code contract; only
`from_compressed` returns the typed error. -/
theorem claim_C5 :
    from_uncompressed (5 :: List.replicate 64 0) = ParseOutcome.panicked ∧
    from_uncompressed (4 :: List.replicate 64 0) = ParseOutcome.panicked ∧
    parse_der [48, 4, 2, 1] = ParseOutcome.panicked ∧
    from_compressed (5 :: List.replicate 32 0) =
      ParseOutcome.err "A compressed public key should start with 2/3" := by
  refine ⟨by decide, by decide, by decide, ?_⟩
  decide

/-! ## Claim C2 -/

theorem roundMod_modulo (a : FieldElement) : a.roundMod.modulo = a.modulo := by
  unfold FieldElement.roundMod
  split <;> rfl

theorem fadd_modulo (a b : FieldElement) : (a.fadd b).modulo = a.modulo := by
  unfold FieldElement.fadd
  rw [roundMod_modulo]

theorem fdiv_modulo (a b : FieldElement) : (a.fdiv b).modulo = a.modulo := by
  unfold FieldElement.fdiv FieldElement.fmul modAndNew
  rw [roundMod_modulo, roundMod_modulo]

theorem fdiv_normalized (a b : FieldElement) (hm : 0 < a.modulo) :
    (a.fdiv b).normalized := by
  have h := modAndNew_normalized
    (a.num * (⟨intModPow b.num (a.modulo - 2) a.modulo, a.modulo⟩ :
      FieldElement).num) a.modulo hm
  unfold FieldElement.fdiv FieldElement.fmul
  rw [roundMod_id _ h.1]
  exact h

theorem neg_emod_eq (s n : Int) (h0 : 0 < s) (h1 : s < n) :
    (-s) % n = n - s := by
  have h2 : (-s + n * 1) % n = (-s) % n :=
    Int.add_mul_emod_self_left (-s) n 1
  rw [mul_one] at h2
  rw [← h2, Int.emod_eq_of_lt (by omega) (by omega)]
  omega

/-- C2: whenever `sign_raw` returns a signature, the emitted `s` is the
low-half normalization `min(s₀, n - s₀)` of `s₀ = (z + r·d)/k`, it lies in
the lower half of the group order, and neither the emitted `r` nor `s` is
zero; a zero `r` or normalized `s` is exactly the fatal
`unimplemented!()` case (`none`), never an emitted signature. -/
theorem claim_C2 (d : Int) (k z : FieldElement)
    (hk : k.modulo = nOrder) (hz : z.modulo = nOrder) :
    (∀ rb sb, sign_raw d k z = some (rb, sb) →
        rb = toBytesBE 32 (signR k).num.toNat ∧
        sb = toBytesBE 32
          (min (signS0 d k z).num (nOrder - (signS0 d k z).num)).toNat ∧
        (signR k).num ≠ 0 ∧
        0 < min (signS0 d k z).num (nOrder - (signS0 d k z).num) ∧
        min (signS0 d k z).num (nOrder - (signS0 d k z).num) ≤
          nOrder.tdiv 2) ∧
    (sign_raw d k z = none ↔
        ((signR k).num = 0 ∨
         min (signS0 d k z).num (nOrder - (signS0 d k z).num) = 0)) := by
  have hnpos : (0:Int) < nOrder := by decide
  have hhalf : nOrder = 2 * nOrder.tdiv 2 + 1 := by decide
  have htdnn : (0:Int) ≤ nOrder.tdiv 2 := by decide
  -- s₀ is normalized over the order
  have hs0mod : (signS0 d k z).modulo = nOrder := by
    unfold signS0
    rw [fdiv_modulo, fadd_modulo, hz]
  have hs0norm : (signS0 d k z).normalized := by
    unfold signS0
    exact fdiv_normalized _ _ (by rw [fadd_modulo, hz]; exact hnpos)
  have hs0lo : 0 ≤ (signS0 d k z).num := hs0norm.1
  have hs0hi : (signS0 d k z).num < nOrder := hs0mod ▸ hs0norm.2
  -- the normalized s equals min(s₀, n - s₀)
  have hs_eq :
      (if nOrder.tdiv 2 < (signS0 d k z).num then
          FieldElement.bigSub nOrder (signS0 d k z)
        else signS0 d k z).num =
        min (signS0 d k z).num (nOrder - (signS0 d k z).num) := by
    by_cases hc : nOrder.tdiv 2 < (signS0 d k z).num
    · rw [if_pos hc]
      unfold FieldElement.bigSub FieldElement.new
      rw [fsub_eq _ _ (by simpa [hs0mod] using hnpos)]
      simp only [hs0mod]
      rw [Int.emod_self]
      rw [zero_sub, neg_emod_eq _ _ (by omega) hs0hi]
      rw [min_eq_right
        (by omega : nOrder - (signS0 d k z).num ≤ (signS0 d k z).num)]
    · rw [if_neg hc]
      rw [min_eq_left
        (by omega : (signS0 d k z).num ≤ nOrder - (signS0 d k z).num)]
  -- r is normalized over the order
  have hrnum : (signR k).num =
      (Point.mulE k.num.toNat secp.generator).x.num % nOrder := by
    unfold signR FieldElement.modNum
    rw [roundMod_id _ (Int.emod_nonneg _ hnpos.ne')]
    rfl
  have hrlo : 0 ≤ (signR k).num := by
    rw [hrnum]; exact Int.emod_nonneg _ hnpos.ne'
  constructor
  · intro rb sb hsome
    unfold sign_raw at hsome
    set s1 := (if nOrder.tdiv 2 < (signS0 d k z).num then
        FieldElement.bigSub nOrder (signS0 d k z)
      else signS0 d k z) with hs1
    by_cases hg : ((signR k).isZero || s1.isZero) = true
    · rw [if_pos hg] at hsome
      exact absurd hsome (by simp)
    · rw [if_neg hg] at hsome
      have hinj := Option.some.inj hsome
      have hrb : rb = (signR k).serialize_num := (Prod.mk.injEq _ _ _ _ ▸ hinj.symm).1
      have hsb : sb = s1.serialize_num := (Prod.mk.injEq _ _ _ _ ▸ hinj.symm).2
      simp only [FieldElement.isZero, Bool.or_eq_true, beq_iff_eq, not_or] at hg
      refine ⟨hrb, ?_, hg.1, ?_, ?_⟩
      · rw [hsb]
        unfold FieldElement.serialize_num
        rw [hs_eq]
      · have hpos : 0 ≤ s1.num := by
          rw [hs_eq]
          exact le_min hs0lo (by omega)
        have hne := hg.2
        rw [← hs_eq]
        omega
      · rcases le_total (signS0 d k z).num (nOrder - (signS0 d k z).num) with
          hmin | hmin
        · rw [min_eq_left hmin]; omega
        · rw [min_eq_right hmin]; omega
  · unfold sign_raw
    set s1 := (if nOrder.tdiv 2 < (signS0 d k z).num then
        FieldElement.bigSub nOrder (signS0 d k z)
      else signS0 d k z) with hs1
    by_cases hg : ((signR k).isZero || s1.isZero) = true
    · rw [if_pos hg]
      simp only [FieldElement.isZero, Bool.or_eq_true, beq_iff_eq] at hg
      simp only [true_iff]
      rw [← hs_eq]
      exact hg
    · rw [if_neg hg]
      simp only [FieldElement.isZero, Bool.or_eq_true, beq_iff_eq, not_or] at hg
      simp only [reduceCtorEq, false_iff, not_or]
      rw [← hs_eq]
      exact hg

/-- C2 (witness): the signing post-condition instantiated at
`d = 1`, `k = z = 1` over the group order. -/
theorem claim_C2_witness :
    ((⟨1, nOrder⟩ : FieldElement).modulo = nOrder ∧
     (⟨1, nOrder⟩ : FieldElement).modulo = nOrder) ∧
    ((∀ rb sb,
        sign_raw 1 ⟨1, nOrder⟩ ⟨1, nOrder⟩ = some (rb, sb) →
        rb = toBytesBE 32 (signR ⟨1, nOrder⟩).num.toNat ∧
        sb = toBytesBE 32
          (min (signS0 1 ⟨1, nOrder⟩ ⟨1, nOrder⟩).num
            (nOrder - (signS0 1 ⟨1, nOrder⟩ ⟨1, nOrder⟩).num)).toNat ∧
        (signR ⟨1, nOrder⟩).num ≠ 0 ∧
        0 < min (signS0 1 ⟨1, nOrder⟩ ⟨1, nOrder⟩).num
          (nOrder - (signS0 1 ⟨1, nOrder⟩ ⟨1, nOrder⟩).num) ∧
        min (signS0 1 ⟨1, nOrder⟩ ⟨1, nOrder⟩).num
          (nOrder - (signS0 1 ⟨1, nOrder⟩ ⟨1, nOrder⟩).num) ≤
          nOrder.tdiv 2) ∧
     (sign_raw 1 ⟨1, nOrder⟩ ⟨1, nOrder⟩ = none ↔
        ((signR ⟨1, nOrder⟩).num = 0 ∨
         min (signS0 1 ⟨1, nOrder⟩ ⟨1, nOrder⟩).num
           (nOrder - (signS0 1 ⟨1, nOrder⟩ ⟨1, nOrder⟩).num) = 0))) :=
  ⟨⟨rfl, rfl⟩, claim_C2 1 ⟨1, nOrder⟩ ⟨1, nOrder⟩ rfl rfl⟩

/-! ## Claim C1 -/

/-- `y` of a curve point with `x = 1` (`y² = 1 + 7 mod p`). -/
def c1PubY : Int :=
  29896722852569046015560700294576055776214335159245303116488692907525646231534

/-- A valid public key with `x = 1`, used to exhibit the missing `mod n`
reduction of ECDSA verification. -/
def c1Pub : Point := ⟨⟨1, pMod⟩, ⟨c1PubY, pMod⟩, secpGroup⟩

/-- All-zero 32-byte message hash (`z = 0`). -/
def c1Z : List Nat := List.replicate 32 0

/-- 32-byte big-endian `s = 1`. -/
def c1S : List Nat := List.replicate 31 0 ++ [1]

/-- 32-byte big-endian `r = n + 1` (the group order plus one). -/
def c1R : List Nat :=
  [255, 255, 255, 255, 255, 255, 255, 255, 255, 255, 255, 255, 255, 255, 255,
   254, 186, 174, 220, 230, 175, 72, 160, 59, 191, 210, 94, 140, 208, 54, 65, 66]

set_option maxRecDepth 100000 in
/-- C1 (counterexample): for the on-curve public key with `x = 1`, message
hash `0`, `s = 1` and `r` encoding `n + 1`, the claim's acceptance condition
holds — the computed point is the public key itself, whose `x`-coordinate
`1` is congruent mod `n` to `r` (read mod `n`) — yet `verify` returns
`false`, because the code compares `point.x.num` with the UNREDUCED 256-bit
value `n + 1` of `r` and never reduces either side mod `n`. -/
theorem claim_C1_counterexample :
    c1Pub.isOnCurve = true ∧
    fromBytesBE c1R = nOrder + 1 ∧
    (verifyPoint c1Pub (FieldElement.from_serialize c1Z nOrder)
        (FieldElement.from_serialize c1R nOrder)
        (FieldElement.from_serialize c1S nOrder)).x.num % nOrder =
      fromBytesBE c1R % nOrder ∧
    verify c1Pub c1Z c1R c1S = false := by
  refine ⟨by decide, by decide, ?_, ?_⟩
  · decide
  · decide

/-- C1 (amended): ECDSA verification reads `z`, `r`, `s` as raw (unreduced)
256-bit big-endian integers, computes `u1 = z·s^(n-2) mod n` and
`u2 = r·s^(n-2) mod n` (Fermat-inverse division mod `n`), forms
`point = u1·G + u2·Pubkey`, and accepts exactly when `point.x` — an element
of `[0, p)` — equals the raw value of `r`, with NO reduction mod `n` of
either side of the comparison. -/
theorem claim_C1 (pubkey : Point) (msgHash sigR sigS : List Nat) :
    (verify pubkey msgHash sigR sigS = true ↔
      (verifyPoint pubkey (FieldElement.from_serialize msgHash nOrder)
          (FieldElement.from_serialize sigR nOrder)
          (FieldElement.from_serialize sigS nOrder)).x.num =
        fromBytesBE sigR) ∧
    (FieldElement.from_serialize msgHash nOrder).fdiv
        (FieldElement.from_serialize sigS nOrder) =
      ⟨fromBytesBE msgHash * fromBytesBE sigS ^ (nOrder - 2).toNat % nOrder,
        nOrder⟩ ∧
    (FieldElement.from_serialize sigR nOrder).fdiv
        (FieldElement.from_serialize sigS nOrder) =
      ⟨fromBytesBE sigR * fromBytesBE sigS ^ (nOrder - 2).toNat % nOrder,
        nOrder⟩ := by
  have h2 : (2:Int) ≤ nOrder := by decide
  refine ⟨?_, ?_, ?_⟩
  · unfold verify verify_raw verifyPoint
    exact beq_iff_eq
  · exact fdiv_eq (FieldElement.from_serialize msgHash nOrder)
      (FieldElement.from_serialize sigS nOrder) h2
  · exact fdiv_eq (FieldElement.from_serialize sigR nOrder)
      (FieldElement.from_serialize sigS nOrder) h2

/-! ## Claim C3 -/

/-- `get_e` from `secp256k1.rs`: hash `R.x ‖ compressed(pubkey) ‖ msg` and
read the digest over the group order (`from_serialize`, unreduced). -/
def get_e (xR : FieldElement) (pubkey : Point) (msg : List Nat) : FieldElement :=
  FieldElement.from_serialize
    (sha256 (xR.serialize_num ++ (compressed pubkey ++ msg))) secp.order

/-- `PublicKey::verify_schnorr` on an already-hashed 32-byte message
(`to_hash = false`). -/
def verify_schnorr (pubkey : Point) (msg sigR sigS : List Nat) : Bool :=
  let r := FieldElement.from_serialize sigR secp.order
  let s := FieldElement.from_serialize sigS secp.order
  let e := get_e r pubkey msg
  verify_schnorr_raw pubkey e r s

/-- Spec-side Schnorr verifier, written from the claim's words:
`R' = s·G + ((-e) mod n)·Pubkey`; false if `R'` is the point at infinity or
the Jacobi symbol of `R'.y` with respect to the field modulus `p` is not
`+1`; true exactly when `R'.x` equals `r`. -/
def schnorrVerifySpec (pubkey : Point) (e r s : FieldElement) : Bool :=
  let R := Point.addE (Point.mulE s.num.toNat secp.generator)
    (Point.mulE ((-e.num) % nOrder).toNat pubkey)
  if R.isOnInfinity then false
  else if jacobi_symbol R.y.num.toNat pMod.toNat ≠ Jacobi.One then false
  else R.x.num == r.num

/-- C3: on every challenge value in `(0, n)` — which is where the
`mod n`-reduced hash of the claim lives, the zero value excepted — Schnorr
verification behaves exactly as the claim describes: it recomputes `e` from
the received `r`, forms `R' = s·G + ((-e) mod n)·Pubkey` (the code's
`reflect` is exactly `(-e) mod n` on this range), rejects if `R'` is the
infinity sentinel or the Jacobi symbol of `R'.y` w.r.t. `p` is not `+1`,
and accepts iff `R'.x = r`. -/
theorem claim_C3 (pubkey : Point) (msg sigR sigS : List Nat)
    (h0 : 0 < (get_e (FieldElement.from_serialize sigR secp.order)
      pubkey msg).num)
    (h1 : (get_e (FieldElement.from_serialize sigR secp.order)
      pubkey msg).num < nOrder) :
    verify_schnorr pubkey msg sigR sigS =
      schnorrVerifySpec pubkey
        (get_e (FieldElement.from_serialize sigR secp.order) pubkey msg)
        (FieldElement.from_serialize sigR secp.order)
        (FieldElement.from_serialize sigS secp.order) := by
  unfold verify_schnorr verify_schnorr_raw schnorrVerifySpec
    FieldElement.reflect
  rw [neg_emod_eq _ _ h0 h1]
  rfl

set_option maxRecDepth 400000 in
/-- C3 (witness): the Schnorr-verification characterization applied at the
generator as public key, zero message hash, and small `r`, `s`; the
recomputed challenge is concretely evaluated to lie in `(0, n)`. -/
theorem claim_C3_witness :
    (0 < (get_e (FieldElement.from_serialize (List.replicate 31 0 ++ [2])
        secp.order) secp.generator (List.replicate 32 0)).num ∧
     (get_e (FieldElement.from_serialize (List.replicate 31 0 ++ [2])
        secp.order) secp.generator (List.replicate 32 0)).num < nOrder) ∧
    verify_schnorr secp.generator (List.replicate 32 0)
        (List.replicate 31 0 ++ [2]) (List.replicate 31 0 ++ [3]) =
      schnorrVerifySpec secp.generator
        (get_e (FieldElement.from_serialize (List.replicate 31 0 ++ [2])
          secp.order) secp.generator (List.replicate 32 0))
        (FieldElement.from_serialize (List.replicate 31 0 ++ [2]) secp.order)
        (FieldElement.from_serialize (List.replicate 31 0 ++ [3]) secp.order) :=
  ⟨⟨by decide, by decide⟩,
   claim_C3 secp.generator (List.replicate 32 0) (List.replicate 31 0 ++ [2])
     (List.replicate 31 0 ++ [3]) (by decide) (by decide)⟩

/-! ## Claim C6 -/

theorem readN_append (xs ys : List Nat) :
    readN xs.length (xs ++ ys) = some (xs, ys) := by
  unfold readN
  rw [if_neg (by simp), List.take_left, List.drop_left]

theorem zeros_reconstruct (r : List Nat) :
    List.replicate (r.length - (r.dropWhile (fun x => x == 0)).length) 0 ++
      r.dropWhile (fun x => x == 0) = r := by
  have hlen : (r.takeWhile (fun x => x == 0)).length +
      (r.dropWhile (fun x => x == 0)).length = r.length := by
    have h := congrArg List.length
      (List.takeWhile_append_dropWhile (p := fun x => x == 0) (l := r))
    rw [List.length_append] at h
    exact h
  conv_rhs =>
    rw [← List.takeWhile_append_dropWhile (p := fun x => x == 0) (l := r)]
  congr 1
  symm
  rw [List.eq_replicate_iff]
  refine ⟨by omega, fun b hb => ?_⟩
  have := List.mem_takeWhile_imp hb
  simpa using this

theorem dropWhile_length_le (r : List Nat) :
    (r.dropWhile (fun x => x == 0)).length ≤ r.length := by
  have h := congrArg List.length
    (List.takeWhile_append_dropWhile (p := fun x => x == 0) (l := r))
  rw [List.length_append] at h
  omega


theorem readIntDER_trim (r rest RT : List Nat) (hlen : r.length = 32)
    (hRT : derTrim (0 :: r) = some RT) :
    readIntDER (2 :: RT.length :: (RT ++ rest)) = some (RT.length, r, rest) := by
  have hdw : (0 :: r).dropWhile (fun x => x == 0) =
      r.dropWhile (fun x => x == 0) := by
    rw [List.dropWhile_cons_of_pos (by decide)]
  unfold derTrim at hRT
  rw [hdw] at hRT
  have hle : (r.dropWhile (fun x => x == 0)).length ≤ 32 :=
    hlen ▸ dropWhile_length_le r
  have hrec := zeros_reconstruct r
  rw [hlen] at hrec
  cases hcase : r.dropWhile (fun x => x == 0) with
  | nil => rw [hcase] at hRT; exact absurd hRT (by simp)
  | cons h t =>
    rw [hcase] at hRT hrec hle
    have htl : t.length + 1 ≤ 32 := by simpa using hle
    simp only [Option.some.injEq] at hRT
    by_cases hbig : 128 ≤ h
    · rw [if_pos hbig] at hRT
      subst hRT
      by_cases hfull : (h :: t).length = 32
      · have hlen33 : (0 :: h :: t).length = 33 := by
          rw [List.length_cons, hfull]
        rw [hlen33]
        simp only [readIntDER]
        rw [if_neg (by simp), if_pos trivial]
        have hcons : ((0 :: h :: t) ++ rest) = 0 :: ((h :: t) ++ rest) := rfl
        rw [hcons]
        have hreq : h :: t = r := by
          have h0 : (32 : Nat) - (h :: t).length = 0 := by omega
          rw [h0] at hrec
          simpa using hrec
        split
        next b rest2 heq =>
          obtain ⟨hb, hrest2⟩ := List.cons.inj heq
          subst hb
          subst hrest2
          rw [if_neg (by simp)]
          rw [← hfull, readN_append, hreq]
        next heq => exact absurd heq (by simp)
      · have htl2 : t.length + 1 < 32 := by
          simp only [List.length_cons] at hfull
          omega
        simp only [readIntDER]
        rw [if_neg (by simp)]
        rw [if_neg (by simp only [List.length_cons]; omega)]
        rw [if_pos (by simp only [List.length_cons]; omega)]
        rw [readN_append]
        simp only [Option.some.injEq, Prod.mk.injEq]
        refine ⟨trivial, ?_, trivial⟩
        have h1 : (32 : Nat) - (h :: t).length =
            (32 - (0 :: h :: t).length) + 1 := by
          simp only [List.length_cons]
          omega
        rw [← hrec, h1, List.replicate_succ', List.append_assoc]
        rfl
    · rw [if_neg hbig] at hRT
      subst hRT
      simp only [readIntDER]
      rw [if_neg (by simp)]
      rw [if_neg (by simp only [List.length_cons]; omega)]
      rw [if_pos hle]
      rw [readN_append]
      simp only [Option.some.injEq, Prod.mk.injEq]
      exact ⟨trivial, hrec, trivial⟩


theorem derTrim_length_le (r RT : List Nat) (hr : r.length = 32)
    (hRT : derTrim (0 :: r) = some RT) : RT.length ≤ 33 := by
  unfold derTrim at hRT
  rw [List.dropWhile_cons_of_pos (by decide)] at hRT
  have hle := hr ▸ dropWhile_length_le r
  cases hcase : r.dropWhile (fun x => x == 0) with
  | nil => rw [hcase] at hRT; exact absurd hRT (by simp)
  | cons h t =>
    rw [hcase] at hRT hle
    simp only [Option.some.injEq] at hRT
    subst hRT
    by_cases hbig : 128 ≤ h
    · rw [if_pos hbig]
      simp only [List.length_cons] at hle ⊢
      omega
    · rw [if_neg hbig]
      omega

theorem derTrim_of_ne_nil (r : List Nat)
    (hne : r.dropWhile (fun x => x == 0) ≠ []) :
    ∃ RT, derTrim (0 :: r) = some RT := by
  unfold derTrim
  rw [List.dropWhile_cons_of_pos (by decide)]
  cases hcase : r.dropWhile (fun x => x == 0) with
  | nil => exact absurd hcase hne
  | cons h t => exact ⟨_, rfl⟩

/-- C6: the DER round-trip.  For any 32-byte `r` and `s` buffers that are
not all-zero (as produced by signing, whose `r` and `s` are non-zero),
`serialize_der` succeeds, `parse_der` of its output returns exactly the
original `(r, s)` pair, and the encoding is at most 72 bytes long. -/
theorem claim_C6 (r s : List Nat) (hr : r.length = 32) (hs : s.length = 32)
    (hrnz : ∃ b ∈ r, b ≠ 0) (hsnz : ∃ b ∈ s, b ≠ 0) :
    ∃ der, serialize_der r s = some der ∧
      parse_der der = ParseOutcome.ok (r, s) ∧ der.length ≤ 72 := by
  have hrne : r.dropWhile (fun x => x == 0) ≠ [] := by
    intro hnil
    rw [List.dropWhile_eq_nil_iff] at hnil
    obtain ⟨b, hb, hbne⟩ := hrnz
    exact hbne (by simpa using hnil b hb)
  have hsne : s.dropWhile (fun x => x == 0) ≠ [] := by
    intro hnil
    rw [List.dropWhile_eq_nil_iff] at hnil
    obtain ⟨b, hb, hbne⟩ := hsnz
    exact hbne (by simpa using hnil b hb)
  obtain ⟨RT, hRT⟩ := derTrim_of_ne_nil r hrne
  obtain ⟨ST, hST⟩ := derTrim_of_ne_nil s hsne
  have hRTlen := derTrim_length_le r RT hr hRT
  have hSTlen := derTrim_length_le s ST hs hST
  refine ⟨[48, RT.length + ST.length + 4, 2, RT.length] ++ RT ++
    ([2, ST.length] ++ ST), ?_, ?_, ?_⟩
  · unfold serialize_der
    rw [hRT, hST]
  · have hshape : ([48, RT.length + ST.length + 4, 2, RT.length] ++ RT ++
        ([2, ST.length] ++ ST)) =
        48 :: (RT.length + ST.length + 4) ::
          (2 :: RT.length :: (RT ++ (2 :: ST.length :: (ST ++ [])))) := by
      simp
    rw [hshape]
    simp only [parse_der]
    rw [if_neg (by simp)]
    rw [readIntDER_trim r (2 :: ST.length :: (ST ++ [])) RT hr hRT]
    split
    next rlen r2 rest2 heq =>
      have h := heq
      simp only [Option.some.injEq, Prod.mk.injEq] at h
      obtain ⟨h1, h2, h3⟩ := h
      subst h1
      subst h2
      subst h3
      rw [readIntDER_trim s [] ST hs hST]
      split
      next slen s2 rem heq2 =>
        have h4 := heq2
        simp only [Option.some.injEq, Prod.mk.injEq] at h4
        obtain ⟨h5, h6, h7⟩ := h4
        subst h5
        subst h6
        rw [if_pos (by omega)]
      next heq2 => exact absurd heq2 (by simp)
    next heq => exact absurd heq (by simp)
  · simp only [List.length_append, List.length_cons]
    simp
    omega

/-- C6 (witness): the round-trip at the 32-byte buffers encoding `1`. -/
theorem claim_C6_witness :
    ((List.replicate 31 0 ++ [1]).length = 32 ∧
     (∃ b ∈ List.replicate 31 0 ++ [1], b ≠ 0)) ∧
    (∃ der,
      serialize_der (List.replicate 31 0 ++ [1]) (List.replicate 31 0 ++ [1]) =
        some der ∧
      parse_der der =
        ParseOutcome.ok (List.replicate 31 0 ++ [1], List.replicate 31 0 ++ [1]) ∧
      der.length ≤ 72) :=
  ⟨⟨by decide, by decide⟩,
   claim_C6 (List.replicate 31 0 ++ [1]) (List.replicate 31 0 ++ [1])
     (by decide) (by decide) (by decide) (by decide)⟩


/-! ## Claim C9 -/

theorem flip_toInt (x : Jacobi) : x.flip.toInt = -x.toInt := by
  cases x <;> rfl

theorem chi8_odd_eq (den : ℕ) (hodd : den % 2 = 1) :
    (ZMod.χ₈ (den : ZMod 8) : ℤ) =
      if den % 8 = 3 ∨ den % 8 = 5 then -1 else 1 := by
  rw [ZMod.χ₈_nat_eq_if_mod_eight]
  rw [if_neg (by omega)]
  by_cases h35 : den % 8 = 3 ∨ den % 8 = 5
  · rw [if_pos h35, if_neg (by omega)]
  · rw [if_neg h35, if_pos (by omega)]

theorem stripTwos_spec (num den : ℕ) (res : Jacobi) (hn : num ≠ 0)
    (hodd : den % 2 = 1) :
    (stripTwos num den res).1 % 2 = 1 ∧
    (stripTwos num den res).2.toInt *
        jacobiSym ((stripTwos num den res).1 : ℤ) den =
      res.toInt * jacobiSym (num : ℤ) den := by
  induction num using Nat.strong_induction_on generalizing res with
  | _ num ih =>
    rw [stripTwos]
    by_cases h : num ≠ 0 ∧ num % 2 = 0
    · simp only [dif_pos h]
      have hlt : num / 2 < num :=
        Nat.div_lt_self (Nat.pos_of_ne_zero h.1) one_lt_two
      have hhalf : num / 2 ≠ 0 := by omega
      obtain ⟨ho, he⟩ :=
        ih (num / 2) hlt (if den % 8 = 3 ∨ den % 8 = 5 then res.flip else res)
          hhalf
      refine ⟨ho, ?_⟩
      rw [he]
      have hsplit : (num : ℤ) = 2 * ((num / 2 : ℕ) : ℤ) := by
        push_cast
        omega
      rw [hsplit, jacobiSym.mul_left, jacobiSym.at_two (Nat.odd_iff.mpr hodd)]
      rw [chi8_odd_eq den hodd]
      by_cases h35 : den % 8 = 3 ∨ den % 8 = 5
      · rw [if_pos h35, if_pos h35, flip_toInt]
        ring
      · rw [if_neg h35, if_neg h35]
        ring
    · simp only [dif_neg h]
      exact ⟨by omega, trivial⟩

theorem jacLoop_eq (num : ℕ) : ∀ (den : ℕ) (res : Jacobi), den % 2 = 1 →
    0 < den →
    (jacLoop num den res).toInt = res.toInt * jacobiSym (num : ℤ) den := by
  induction num using Nat.strong_induction_on with
  | _ num ih =>
    intro den res hodd hpos
    rw [jacLoop]
    by_cases hn : num = 0
    · simp only [dif_pos hn]
      subst hn
      by_cases h1 : den = 1
      · rw [if_pos h1, h1]
        rw [jacobiSym.one_right]
        ring
      · rw [if_neg h1]
        have h0 : ((0 : ℕ) : ℤ) = 0 := rfl
        rw [h0, jacobiSym.zero_left (by omega)]
        simp [Jacobi.toInt]
    · simp only [dif_neg hn]
      obtain ⟨hmodd, hchain⟩ := stripTwos_spec num den res hn hodd
      have hmpos : 0 < (stripTwos num den res).1 :=
        stripTwos_fst_pos num den res hn
      have hmle : (stripTwos num den res).1 ≤ num :=
        stripTwos_fst_le num den res
      have hrec : den % (stripTwos num den res).1 < (stripTwos num den res).1 :=
        Nat.mod_lt den hmpos
      have hlt : den % (stripTwos num den res).1 < num := by omega
      rw [ih (den % (stripTwos num den res).1) hlt (stripTwos num den res).1 _
        hmodd hmpos]
      have hmodleft :
          jacobiSym ((den % (stripTwos num den res).1 : ℕ) : ℤ)
            (stripTwos num den res).1 =
          jacobiSym (den : ℤ) (stripTwos num den res).1 := by
        rw [jacobiSym.mod_left (den : ℤ) (stripTwos num den res).1]
        congr 1
      rw [hmodleft]
      have hrecip :=
        jacobiSym.quadratic_reciprocity_if hmodd hodd
      by_cases hc : den % 4 = 3 ∧ (stripTwos num den res).1 % 4 = 3
      · rw [if_pos hc, flip_toInt]
        rw [if_pos ⟨hc.2, hc.1⟩] at hrecip
        rw [← hchain, ← hrecip]
        ring
      · rw [if_neg hc]
        rw [if_neg (fun hx => hc ⟨hx.2, hx.1⟩)] at hrecip
        rw [hrecip]
        exact hchain

/-- C9: for every non-negative numerator and odd positive denominator, the
library's `jacobi_symbol` equals the mathematical Jacobi symbol; and when
the denominator is an odd prime `p`, the result — mapped into `{-1, 0, 1}` —
satisfies the Euler criterion `num ^ ((p - 1) / 2) mod p` (the Legendre
symbol). -/
theorem claim_C9 (num den : ℕ) (hodd : den % 2 = 1) (hpos : 0 < den) :
    (jacobi_symbol num den).toInt = jacobiSym (num : ℤ) den ∧
    (∀ hp : den.Prime, ¬ den ∣ num →
      (((jacobi_symbol num den).toInt : ℤ) : ZMod den) =
        (num : ZMod den) ^ ((den - 1) / 2)) := by
  have hmain : (jacobi_symbol num den).toInt = jacobiSym (num : ℤ) den := by
    unfold jacobi_symbol
    rw [jacLoop_eq num den .One hodd hpos]
    simp [Jacobi.toInt]
  refine ⟨hmain, fun hp hnd => ?_⟩
  haveI : Fact den.Prime := ⟨hp⟩
  rw [hmain]
  rw [← jacobiSym.legendreSym.to_jacobiSym den (num : ℤ)]
  rw [legendreSym.eq_pow den (num : ℤ)]
  have hexp : den / 2 = (den - 1) / 2 := by omega
  rw [hexp]
  push_cast
  rfl

/-- C9 (witness): `jacobi_symbol 5 9` agrees with the Jacobi symbol, and the
Euler-criterion clause instantiated at the odd prime denominator `7` with
numerator `3`. -/
theorem claim_C9_witness :
    ((9 % 2 = 1 ∧ 0 < 9) ∧
      ((jacobi_symbol 5 9).toInt = jacobiSym (5 : ℤ) 9 ∧
       (∀ hp : Nat.Prime 9, ¬ 9 ∣ 5 →
         (((jacobi_symbol 5 9).toInt : ℤ) : ZMod 9) =
           (5 : ZMod 9) ^ ((9 - 1) / 2)))) ∧
    ((7 % 2 = 1 ∧ 0 < 7) ∧
      ((jacobi_symbol 3 7).toInt = jacobiSym (3 : ℤ) 7 ∧
       (∀ hp : Nat.Prime 7, ¬ 7 ∣ 3 →
         (((jacobi_symbol 3 7).toInt : ℤ) : ZMod 7) =
           (3 : ZMod 7) ^ ((7 - 1) / 2)))) :=
  ⟨⟨⟨by decide, by decide⟩, claim_C9 5 9 (by decide) (by decide)⟩,
   ⟨⟨by decide, by decide⟩, claim_C9 3 7 (by decide) (by decide)⟩⟩



/-! ## Claim C8: the group-law contract of `Point` addition -/

theorem modAndNew_modulo (x m : Int) : (modAndNew x m).modulo = m := by
  unfold modAndNew
  rw [roundMod_modulo]

theorem fsub_modulo (a b : FieldElement) : (a.fsub b).modulo = a.modulo :=
  modAndNew_modulo _ _

theorem fmul_modulo (a b : FieldElement) : (a.fmul b).modulo = a.modulo :=
  modAndNew_modulo _ _

theorem bigMul_modulo (c : Int) (a : FieldElement) :
    (a.bigMul c).modulo = a.modulo :=
  modAndNew_modulo _ _

theorem faddBig_modulo (a : FieldElement) (c : Int) :
    (a.faddBig c).modulo = a.modulo :=
  fadd_modulo _ _

theorem pow_u_modulo (a : FieldElement) (e : Int) :
    (a.pow_u e).modulo = a.modulo := rfl

theorem getSlope_modulo (P Q : Point) (h : P.y.modulo = P.x.modulo) :
    (Point.getSlope P Q).modulo = P.x.modulo := by
  unfold Point.getSlope
  by_cases hx : P.x ≠ Q.x
  · rw [if_pos hx, fdiv_modulo, fsub_modulo, h]
  · rw [if_neg hx, fdiv_modulo, faddBig_modulo, bigMul_modulo, pow_u_modulo]

theorem zmodPowInv (p : ℕ) [Fact p.Prime] (a : ZMod p) (hp3 : 3 ≤ p) :
    a ^ (p - 2) = a⁻¹ := by
  by_cases ha : a = 0
  · subst ha
    rw [inv_zero]
    exact zero_pow (by omega)
  · have h1 : a ^ (p - 2) * a = 1 := by
      rw [← pow_succ]
      have he : p - 2 + 1 = p - 1 := by omega
      rw [he]
      exact ZMod.pow_card_sub_one_eq_one ha
    exact eq_inv_of_mul_eq_one_left h1

theorem cast_modAndNew (p : ℕ) (hp : 0 < p) (x : Int) :
    (((modAndNew x (p : ℤ)).num : ℤ) : ZMod p) = (x : ZMod p) := by
  rw [modAndNew_eq x p (by exact_mod_cast hp)]
  exact ZMod.intCast_mod x p

theorem cast_fsub (p : ℕ) (hp : 0 < p) (a b : FieldElement)
    (ha : a.modulo = (p : ℤ)) :
    (((a.fsub b).num : ℤ) : ZMod p) =
      (a.num : ZMod p) - (b.num : ZMod p) := by
  unfold FieldElement.fsub
  rw [ha, cast_modAndNew p hp]
  push_cast
  ring

theorem cast_fadd (p : ℕ) (hp : 0 < p) (a b : FieldElement)
    (ha : a.modulo = (p : ℤ)) :
    (((a.fadd b).num : ℤ) : ZMod p) =
      (a.num : ZMod p) + (b.num : ZMod p) := by
  have : a.fadd b = modAndNew (a.num + b.num) a.modulo := rfl
  rw [this, ha, cast_modAndNew p hp]
  push_cast
  ring

theorem cast_fmul (p : ℕ) (hp : 0 < p) (a b : FieldElement)
    (ha : a.modulo = (p : ℤ)) :
    (((a.fmul b).num : ℤ) : ZMod p) =
      (a.num : ZMod p) * (b.num : ZMod p) := by
  unfold FieldElement.fmul
  rw [ha, cast_modAndNew p hp]
  push_cast
  ring

theorem cast_bigMul (p : ℕ) (hp : 0 < p) (c : Int) (a : FieldElement)
    (ha : a.modulo = (p : ℤ)) :
    (((a.bigMul c).num : ℤ) : ZMod p) =
      (a.num : ZMod p) * (c : ZMod p) := by
  unfold FieldElement.bigMul
  rw [ha, cast_modAndNew p hp]
  push_cast
  ring

theorem cast_new (p : ℕ) (c : Int) :
    (((FieldElement.new c (p : ℤ)).num : ℤ) : ZMod p) = (c : ZMod p) := by
  unfold FieldElement.new
  exact ZMod.intCast_mod c p

theorem cast_faddBig (p : ℕ) (hp : 0 < p) (a : FieldElement) (c : Int)
    (ha : a.modulo = (p : ℤ)) :
    (((a.faddBig c).num : ℤ) : ZMod p) =
      (a.num : ZMod p) + (c : ZMod p) := by
  unfold FieldElement.faddBig
  rw [cast_fadd p hp a _ ha, ha, cast_new p c]

theorem cast_pow_u (p : ℕ) (hp : 0 < p) (a : FieldElement) (e : Int)
    (ha : a.modulo = (p : ℤ)) (he : 0 ≤ e) :
    (((a.pow_u e).num : ℤ) : ZMod p) = (a.num : ZMod p) ^ e.toNat := by
  rw [pow_u_eq a e (by rw [ha]; exact_mod_cast hp) he, ha]
  rw [ZMod.intCast_mod]
  push_cast
  ring

theorem cast_fdiv (p : ℕ) [Fact p.Prime] (hp3 : 3 ≤ p) (a b : FieldElement)
    (ha : a.modulo = (p : ℤ)) :
    (((a.fdiv b).num : ℤ) : ZMod p) =
      (a.num : ZMod p) * (b.num : ZMod p)⁻¹ := by
  have hp2 : (2 : ℤ) ≤ a.modulo := by rw [ha]; exact_mod_cast (by omega : 2 ≤ p)
  rw [fdiv_eq a b hp2, ha]
  rw [ZMod.intCast_mod]
  have hexp : ((p : ℤ) - 2).toNat = p - 2 := by omega
  push_cast [hexp]
  rw [zmodPowInv p _ hp3]

/-- Validity of an embedded `Point` over the prime `p` and group `g`: the
coordinates are normalized field elements mod `p`, the point is on the curve
or is the `(0, 0)` infinity sentinel, and a zero `x`-coordinate occurs only
at the sentinel (as on secp256k1, where `b = 7` is a non-residue). -/
def Pvalid (p : ℕ) (g : Group) (P : Point) : Prop :=
  P.group = g ∧ P.x.modulo = (p : ℤ) ∧ P.y.modulo = (p : ℤ) ∧
  P.x.normalized ∧ P.y.normalized ∧
  (P.isOnCurve = true ∨ (P.x.num = 0 ∧ P.y.num = 0)) ∧
  (P.x.num = 0 → P.y.num = 0)



instance (a : FieldElement) : Decidable a.normalized :=
  inferInstanceAs (Decidable (0 ≤ a.num ∧ a.num < a.modulo))

instance (p : ℕ) (g : Group) (P : Point) : Decidable (Pvalid p g P) :=
  inferInstanceAs (Decidable (P.group = g ∧ P.x.modulo = (p : ℤ) ∧
    P.y.modulo = (p : ℤ) ∧ P.x.normalized ∧ P.y.normalized ∧
    (P.isOnCurve = true ∨ (P.x.num = 0 ∧ P.y.num = 0)) ∧
    (P.x.num = 0 → P.y.num = 0)))

instance fact_prime_11 : Fact (Nat.Prime 11) := ⟨by norm_num⟩

set_option maxHeartbeats 1000000 in
/-- C8: the group-law contract of `impl AddAssign for Point`, read in the
field `ZMod p` for a prime modulus `p ≠ 2`: the `(0,0)` sentinel is the
identity on either side; equal `x` with different `y` (or doubling a point
with `y = 0`) yields the sentinel; otherwise the result is
`(m² - x₁ - x₂, m(x₁ - x') - y₁)` where `m` is the chord slope
`(y₁-y₂)·(x₁-x₂)⁻¹` for distinct `x` and the tangent slope
`(3x₁²+a)·(2y₁)⁻¹` for doubling — the code's Fermat-exponent division
being true field division mod the prime. -/
theorem claim_C8 (p : ℕ) (g : Group) [Fact p.Prime] (hp2 : p ≠ 2)
    (P Q : Point) (hP : Pvalid p g P) (hQ : Pvalid p g Q) :
    (P.x.num = 0 → Point.addE P Q = Q) ∧
    (P.x.num ≠ 0 → Q.x.num = 0 → Point.addE P Q = P) ∧
    (P.x.num ≠ 0 → Q.x.num ≠ 0 →
      ((P.x = Q.x ∧ P.y ≠ Q.y) ∨ (P = Q ∧ P.y.num = 0)) →
      Point.addE P Q = ⟨⟨0, (p : ℤ)⟩, ⟨0, (p : ℤ)⟩, g⟩) ∧
    (P.x.num ≠ 0 → Q.x.num ≠ 0 →
      ¬ ((P.x = Q.x ∧ P.y ≠ Q.y) ∨ (P = Q ∧ P.y.num = 0)) →
      ∃ m : ZMod p,
        (P.x ≠ Q.x →
          m = ((P.y.num : ZMod p) - (Q.y.num : ZMod p)) *
            ((P.x.num : ZMod p) - (Q.x.num : ZMod p))⁻¹) ∧
        (P.x = Q.x →
          m = (3 * (P.x.num : ZMod p) ^ 2 + (g.a : ZMod p)) *
            (2 * (P.y.num : ZMod p))⁻¹) ∧
        (((Point.addE P Q).x.num : ZMod p) =
          m ^ 2 - (P.x.num : ZMod p) - (Q.x.num : ZMod p)) ∧
        (((Point.addE P Q).y.num : ZMod p) =
          m * ((P.x.num : ZMod p) -
            (m ^ 2 - (P.x.num : ZMod p) - (Q.x.num : ZMod p))) -
          (P.y.num : ZMod p))) := by
  have hple : 2 ≤ p := (Fact.out (p := p.Prime)).two_le
  have hp3 : 3 ≤ p := by omega
  have hp0 : 0 < p := by omega
  obtain ⟨hPg, hPx, hPy, hPnx, hPny, hPcurve, hPsent⟩ := hP
  obtain ⟨hQg, hQx, hQy, hQnx, hQny, hQcurve, hQsent⟩ := hQ
  refine ⟨?_, ?_, ?_, ?_⟩
  · intro h0
    unfold Point.addE
    rw [if_pos h0]
  · intro h0 hq0
    unfold Point.addE
    rw [if_neg h0, if_pos hq0]
  · intro h0 hq0 hcase
    unfold Point.addE
    rw [if_neg h0, if_neg hq0, if_pos hcase]
    rw [hPx, hPg]
    rfl
  · intro h0 hq0 hcase
    have haddx : (Point.addE P Q).x =
        (((Point.getSlope P Q).pow_u 2).fsub P.x).fsub Q.x := by
      unfold Point.addE
      rw [if_neg h0, if_neg hq0, if_neg hcase]
    have haddy : (Point.addE P Q).y =
        ((Point.getSlope P Q).fmul
          (P.x.fsub ((((Point.getSlope P Q).pow_u 2).fsub P.x).fsub Q.x))).fsub
          P.y := by
      unfold Point.addE
      rw [if_neg h0, if_neg hq0, if_neg hcase]
    have hyx : P.y.modulo = P.x.modulo := by rw [hPx, hPy]
    have hsl : (Point.getSlope P Q).modulo = (p : ℤ) := by
      rw [getSlope_modulo P Q hyx, hPx]
    have hxprime : (((Point.addE P Q).x.num : ℤ) : ZMod p) =
        ((Point.getSlope P Q).num : ZMod p) ^ 2 -
          (P.x.num : ZMod p) - (Q.x.num : ZMod p) := by
      rw [haddx]
      rw [cast_fsub p hp0 _ _ (by rw [fsub_modulo, pow_u_modulo, hsl])]
      rw [cast_fsub p hp0 _ _ (by rw [pow_u_modulo, hsl])]
      rw [cast_pow_u p hp0 _ 2 hsl (by omega)]
      rfl
    refine ⟨((Point.getSlope P Q).num : ZMod p), ?_, ?_, hxprime, ?_⟩
    · intro hx
      unfold Point.getSlope
      rw [if_pos hx]
      rw [cast_fdiv p hp3 _ _ (by rw [fsub_modulo, hPy])]
      rw [cast_fsub p hp0 _ _ hPy, cast_fsub p hp0 _ _ hPx]
    · intro hx
      unfold Point.getSlope
      rw [if_neg (fun hh => hh hx)]
      rw [cast_fdiv p hp3 _ _
        (by rw [faddBig_modulo, bigMul_modulo, pow_u_modulo, hPx])]
      rw [cast_faddBig p hp0 _ _ (by rw [bigMul_modulo, pow_u_modulo, hPx])]
      rw [cast_bigMul p hp0 _ _ (by rw [pow_u_modulo, hPx])]
      rw [cast_pow_u p hp0 _ 2 hPx (by omega)]
      rw [cast_bigMul p hp0 _ _ hPy]
      rw [hPg]
      have h2 : (((2 : ℤ) : ZMod p)) = (2 : ZMod p) := by push_cast; rfl
      have h3 : (((3 : ℤ) : ZMod p)) = (3 : ZMod p) := by push_cast; rfl
      rw [h2, h3]
      rw [show (2 : ℤ).toNat = 2 from rfl]
      rw [mul_comm ((P.y.num : ZMod p)) (2 : ZMod p)]
      rw [mul_comm (((P.x.num : ZMod p)) ^ 2) (3 : ZMod p)]
    · rw [haddy]
      rw [cast_fsub p hp0 _ _ (by rw [fmul_modulo, hsl])]
      rw [cast_fmul p hp0 _ _ hsl]
      rw [cast_fsub p hp0 _ _ hPx]
      have hx2 : ((((((Point.getSlope P Q).pow_u 2).fsub P.x).fsub Q.x).num :
          ℤ) : ZMod p) =
          ((Point.getSlope P Q).num : ZMod p) ^ 2 -
            (P.x.num : ZMod p) - (Q.x.num : ZMod p) := by
        rw [cast_fsub p hp0 _ _ (by rw [fsub_modulo, pow_u_modulo, hsl])]
        rw [cast_fsub p hp0 _ _ (by rw [pow_u_modulo, hsl])]
        rw [cast_pow_u p hp0 _ 2 hsl (by omega)]
        rfl
      rw [hx2]

/-- C8 (witness): the contract instantiated on the toy curve
`y² = x³ + 6` over `ZMod 11` at the point `(2, 5)` (a doubling). -/
theorem claim_C8_witness :
    ((11 : ℕ) ≠ 2 ∧ Pvalid 11 ⟨0, 6⟩ ⟨⟨2, 11⟩, ⟨5, 11⟩, ⟨0, 6⟩⟩) ∧
    (((⟨⟨2, 11⟩, ⟨5, 11⟩, ⟨0, 6⟩⟩ : Point).x.num ≠ 0 →
        (⟨⟨2, 11⟩, ⟨5, 11⟩, ⟨0, 6⟩⟩ : Point).x.num ≠ 0 →
        ¬ (((⟨⟨2, 11⟩, ⟨5, 11⟩, ⟨0, 6⟩⟩ : Point).x =
            (⟨⟨2, 11⟩, ⟨5, 11⟩, ⟨0, 6⟩⟩ : Point).x ∧
          (⟨⟨2, 11⟩, ⟨5, 11⟩, ⟨0, 6⟩⟩ : Point).y ≠
            (⟨⟨2, 11⟩, ⟨5, 11⟩, ⟨0, 6⟩⟩ : Point).y) ∨
         ((⟨⟨2, 11⟩, ⟨5, 11⟩, ⟨0, 6⟩⟩ : Point) =
            ⟨⟨2, 11⟩, ⟨5, 11⟩, ⟨0, 6⟩⟩ ∧
          (⟨⟨2, 11⟩, ⟨5, 11⟩, ⟨0, 6⟩⟩ : Point).y.num = 0)) →
        ∃ m : ZMod 11,
          ((⟨⟨2, 11⟩, ⟨5, 11⟩, ⟨0, 6⟩⟩ : Point).x ≠
              (⟨⟨2, 11⟩, ⟨5, 11⟩, ⟨0, 6⟩⟩ : Point).x →
            m = (((⟨⟨2, 11⟩, ⟨5, 11⟩, ⟨0, 6⟩⟩ : Point).y.num : ZMod 11) -
                ((⟨⟨2, 11⟩, ⟨5, 11⟩, ⟨0, 6⟩⟩ : Point).y.num : ZMod 11)) *
              (((⟨⟨2, 11⟩, ⟨5, 11⟩, ⟨0, 6⟩⟩ : Point).x.num : ZMod 11) -
                ((⟨⟨2, 11⟩, ⟨5, 11⟩, ⟨0, 6⟩⟩ : Point).x.num : ZMod 11))⁻¹) ∧
          ((⟨⟨2, 11⟩, ⟨5, 11⟩, ⟨0, 6⟩⟩ : Point).x =
              (⟨⟨2, 11⟩, ⟨5, 11⟩, ⟨0, 6⟩⟩ : Point).x →
            m = (3 * (((⟨⟨2, 11⟩, ⟨5, 11⟩, ⟨0, 6⟩⟩ : Point).x.num :
                ZMod 11)) ^ 2 + (((⟨0, 6⟩ : Group).a : ZMod 11))) *
              (2 * (((⟨⟨2, 11⟩, ⟨5, 11⟩, ⟨0, 6⟩⟩ : Point).y.num :
                ZMod 11)))⁻¹) ∧
          (((Point.addE ⟨⟨2, 11⟩, ⟨5, 11⟩, ⟨0, 6⟩⟩
                ⟨⟨2, 11⟩, ⟨5, 11⟩, ⟨0, 6⟩⟩).x.num : ZMod 11) =
            m ^ 2 - (((⟨⟨2, 11⟩, ⟨5, 11⟩, ⟨0, 6⟩⟩ : Point).x.num : ZMod 11)) -
              (((⟨⟨2, 11⟩, ⟨5, 11⟩, ⟨0, 6⟩⟩ : Point).x.num : ZMod 11))) ∧
          (((Point.addE ⟨⟨2, 11⟩, ⟨5, 11⟩, ⟨0, 6⟩⟩
                ⟨⟨2, 11⟩, ⟨5, 11⟩, ⟨0, 6⟩⟩).y.num : ZMod 11) =
            m * ((((⟨⟨2, 11⟩, ⟨5, 11⟩, ⟨0, 6⟩⟩ : Point).x.num : ZMod 11)) -
              (m ^ 2 -
                (((⟨⟨2, 11⟩, ⟨5, 11⟩, ⟨0, 6⟩⟩ : Point).x.num : ZMod 11)) -
                (((⟨⟨2, 11⟩, ⟨5, 11⟩, ⟨0, 6⟩⟩ : Point).x.num : ZMod 11)))) -
            (((⟨⟨2, 11⟩, ⟨5, 11⟩, ⟨0, 6⟩⟩ : Point).y.num : ZMod 11))))) :=
  ⟨⟨by decide, by decide⟩,
   (claim_C8 11 ⟨0, 6⟩ (by decide) ⟨⟨2, 11⟩, ⟨5, 11⟩, ⟨0, 6⟩⟩
     ⟨⟨2, 11⟩, ⟨5, 11⟩, ⟨0, 6⟩⟩ (by decide) (by decide)).2.2.2⟩



/-! ## Primality certificates (Pratt/Lucas chains ending at the secp256k1
field modulus) -/

theorem zmod_pow_powMod (p n e : ℕ) :
    ((n : ZMod p)) ^ e = ((powMod n e p : ℕ) : ZMod p) := by
  rw [powMod_spec, ZMod.natCast_mod, Nat.cast_pow]

theorem lucas_pow_eq (p n e : ℕ) (h : powMod n e p = 1 % p) :
    ((n : ZMod p)) ^ e = 1 := by
  rw [zmod_pow_powMod, h, ZMod.natCast_mod, Nat.cast_one]

theorem lucas_pow_ne (p n e : ℕ) (hp : 1 < p) (h : powMod n e p ≠ 1) :
    ((n : ZMod p)) ^ e ≠ 1 := by
  rw [zmod_pow_powMod]
  intro hc
  apply h
  have h1 : ((powMod n e p : ℕ) : ZMod p) = ((1 : ℕ) : ZMod p) := by
    rw [hc, Nat.cast_one]
  rw [ZMod.natCast_eq_natCast_iff] at h1
  have hlt : powMod n e p < p := by
    rw [powMod_spec]
    exact Nat.mod_lt _ (by omega)
  have h2 : powMod n e p % p = 1 % p := h1
  rw [Nat.mod_eq_of_lt hlt, Nat.mod_eq_of_lt hp] at h2
  exact h2

theorem prime_of_dvd_prime_pow {q r k : ℕ} (hq : q.Prime) (hr : r.Prime)
    (h : q ∣ r ^ k) : q = r :=
  (Nat.prime_dvd_prime_iff_eq hq hr).mp (hq.dvd_of_dvd_pow h)

set_option maxRecDepth 40000 in
theorem prime_M7a : Nat.Prime 7240687 := by
  have hfac : (7240687 - 1 : ℕ) = 2 * (3 * (1206781)) := by norm_num
  refine lucas_primality _ ((3 : ℕ) : ZMod 7240687)
    (lucas_pow_eq _ _ _ (by decide)) ?_
  intro q hq hdvd
  rw [hfac] at hdvd
  rcases (Nat.Prime.dvd_mul hq).mp hdvd with h | hdvd
  · rw [(Nat.prime_dvd_prime_iff_eq hq (by norm_num)).mp h]
    exact lucas_pow_ne _ _ _ (by norm_num) (by decide)
  rcases (Nat.Prime.dvd_mul hq).mp hdvd with h | hdvd
  · rw [(Nat.prime_dvd_prime_iff_eq hq (by norm_num)).mp h]
    exact lucas_pow_ne _ _ _ (by norm_num) (by decide)
  rw [show q = 1206781 from (Nat.prime_dvd_prime_iff_eq hq (by norm_num)).mp hdvd]
  exact lucas_pow_ne _ _ _ (by norm_num) (by decide)

set_option maxRecDepth 40000 in
theorem prime_M8a : Nat.Prime 13331831 := by
  have hfac : (13331831 - 1 : ℕ) = 2 * (5 * (971 * (1373))) := by norm_num
  refine lucas_primality _ ((13 : ℕ) : ZMod 13331831)
    (lucas_pow_eq _ _ _ (by decide)) ?_
  intro q hq hdvd
  rw [hfac] at hdvd
  rcases (Nat.Prime.dvd_mul hq).mp hdvd with h | hdvd
  · rw [(Nat.prime_dvd_prime_iff_eq hq (by norm_num)).mp h]
    exact lucas_pow_ne _ _ _ (by norm_num) (by decide)
  rcases (Nat.Prime.dvd_mul hq).mp hdvd with h | hdvd
  · rw [(Nat.prime_dvd_prime_iff_eq hq (by norm_num)).mp h]
    exact lucas_pow_ne _ _ _ (by norm_num) (by decide)
  rcases (Nat.Prime.dvd_mul hq).mp hdvd with h | hdvd
  · rw [(Nat.prime_dvd_prime_iff_eq hq (by norm_num)).mp h]
    exact lucas_pow_ne _ _ _ (by norm_num) (by decide)
  rw [show q = 1373 from (Nat.prime_dvd_prime_iff_eq hq (by norm_num)).mp hdvd]
  exact lucas_pow_ne _ _ _ (by norm_num) (by decide)

set_option maxRecDepth 40000 in
theorem prime_M9a : Nat.Prime 107590001 := by
  have hfac : (107590001 - 1 : ℕ) = 2 ^ 4 * (5 ^ 4 * (7 * (29 * (53)))) := by norm_num
  refine lucas_primality _ ((3 : ℕ) : ZMod 107590001)
    (lucas_pow_eq _ _ _ (by decide)) ?_
  intro q hq hdvd
  rw [hfac] at hdvd
  rcases (Nat.Prime.dvd_mul hq).mp hdvd with h | hdvd
  · rw [prime_of_dvd_prime_pow hq (by norm_num) h]
    exact lucas_pow_ne _ _ _ (by norm_num) (by decide)
  rcases (Nat.Prime.dvd_mul hq).mp hdvd with h | hdvd
  · rw [prime_of_dvd_prime_pow hq (by norm_num) h]
    exact lucas_pow_ne _ _ _ (by norm_num) (by decide)
  rcases (Nat.Prime.dvd_mul hq).mp hdvd with h | hdvd
  · rw [(Nat.prime_dvd_prime_iff_eq hq (by norm_num)).mp h]
    exact lucas_pow_ne _ _ _ (by norm_num) (by decide)
  rcases (Nat.Prime.dvd_mul hq).mp hdvd with h | hdvd
  · rw [(Nat.prime_dvd_prime_iff_eq hq (by norm_num)).mp h]
    exact lucas_pow_ne _ _ _ (by norm_num) (by decide)
  rw [show q = 53 from (Nat.prime_dvd_prime_iff_eq hq (by norm_num)).mp hdvd]
  exact lucas_pow_ne _ _ _ (by norm_num) (by decide)

set_option maxRecDepth 40000 in
theorem prime_H18 : Nat.Prime 173378833005251801 := by
  have hfac : (173378833005251801 - 1 : ℕ) = 2 ^ 3 * (5 ^ 2 * (2621 * (24809 * (13331831)))) := by norm_num
  refine lucas_primality _ ((6 : ℕ) : ZMod 173378833005251801)
    (lucas_pow_eq _ _ _ (by decide)) ?_
  intro q hq hdvd
  rw [hfac] at hdvd
  rcases (Nat.Prime.dvd_mul hq).mp hdvd with h | hdvd
  · rw [prime_of_dvd_prime_pow hq (by norm_num) h]
    exact lucas_pow_ne _ _ _ (by norm_num) (by decide)
  rcases (Nat.Prime.dvd_mul hq).mp hdvd with h | hdvd
  · rw [prime_of_dvd_prime_pow hq (by norm_num) h]
    exact lucas_pow_ne _ _ _ (by norm_num) (by decide)
  rcases (Nat.Prime.dvd_mul hq).mp hdvd with h | hdvd
  · rw [(Nat.prime_dvd_prime_iff_eq hq (by norm_num)).mp h]
    exact lucas_pow_ne _ _ _ (by norm_num) (by decide)
  rcases (Nat.Prime.dvd_mul hq).mp hdvd with h | hdvd
  · rw [(Nat.prime_dvd_prime_iff_eq hq (by norm_num)).mp h]
    exact lucas_pow_ne _ _ _ (by norm_num) (by decide)
  rw [show q = 13331831 from (Nat.prime_dvd_prime_iff_eq hq prime_M8a).mp hdvd]
  exact lucas_pow_ne _ _ _ (by norm_num) (by decide)

set_option maxRecDepth 40000 in
theorem prime_G23 : Nat.Prime 22149492674086928081353 := by
  have hfac : (22149492674086928081353 - 1 : ℕ) = 2 ^ 3 * (3 * (5323 * (173378833005251801))) := by norm_num
  refine lucas_primality _ ((5 : ℕ) : ZMod 22149492674086928081353)
    (lucas_pow_eq _ _ _ (by decide)) ?_
  intro q hq hdvd
  rw [hfac] at hdvd
  rcases (Nat.Prime.dvd_mul hq).mp hdvd with h | hdvd
  · rw [prime_of_dvd_prime_pow hq (by norm_num) h]
    exact lucas_pow_ne _ _ _ (by norm_num) (by decide)
  rcases (Nat.Prime.dvd_mul hq).mp hdvd with h | hdvd
  · rw [(Nat.prime_dvd_prime_iff_eq hq (by norm_num)).mp h]
    exact lucas_pow_ne _ _ _ (by norm_num) (by decide)
  rcases (Nat.Prime.dvd_mul hq).mp hdvd with h | hdvd
  · rw [(Nat.prime_dvd_prime_iff_eq hq (by norm_num)).mp h]
    exact lucas_pow_ne _ _ _ (by norm_num) (by decide)
  rw [show q = 173378833005251801 from (Nat.prime_dvd_prime_iff_eq hq prime_H18).mp hdvd]
  exact lucas_pow_ne _ _ _ (by norm_num) (by decide)

set_option maxRecDepth 40000 in
theorem prime_F24 : Nat.Prime 132896956044521568488119 := by
  have hfac : (132896956044521568488119 - 1 : ℕ) = 2 * (3 * (22149492674086928081353)) := by norm_num
  refine lucas_primality _ ((6 : ℕ) : ZMod 132896956044521568488119)
    (lucas_pow_eq _ _ _ (by decide)) ?_
  intro q hq hdvd
  rw [hfac] at hdvd
  rcases (Nat.Prime.dvd_mul hq).mp hdvd with h | hdvd
  · rw [(Nat.prime_dvd_prime_iff_eq hq (by norm_num)).mp h]
    exact lucas_pow_ne _ _ _ (by norm_num) (by decide)
  rcases (Nat.Prime.dvd_mul hq).mp hdvd with h | hdvd
  · rw [(Nat.prime_dvd_prime_iff_eq hq (by norm_num)).mp h]
    exact lucas_pow_ne _ _ _ (by norm_num) (by decide)
  rw [show q = 22149492674086928081353 from (Nat.prime_dvd_prime_iff_eq hq prime_G23).mp hdvd]
  exact lucas_pow_ne _ _ _ (by norm_num) (by decide)

set_option maxRecDepth 40000 in
theorem prime_F39 : Nat.Prime 255515944373312847190720520512484175977 := by
  have hfac : (255515944373312847190720520512484175977 - 1 : ℕ) = 2 ^ 3 * (7 ^ 2 * (11 * (1627 * (2657 * (4423 * (41201 * (96557 * (7240687 * (107590001))))))))) := by norm_num
  refine lucas_primality _ ((3 : ℕ) : ZMod 255515944373312847190720520512484175977)
    (lucas_pow_eq _ _ _ (by decide)) ?_
  intro q hq hdvd
  rw [hfac] at hdvd
  rcases (Nat.Prime.dvd_mul hq).mp hdvd with h | hdvd
  · rw [prime_of_dvd_prime_pow hq (by norm_num) h]
    exact lucas_pow_ne _ _ _ (by norm_num) (by decide)
  rcases (Nat.Prime.dvd_mul hq).mp hdvd with h | hdvd
  · rw [prime_of_dvd_prime_pow hq (by norm_num) h]
    exact lucas_pow_ne _ _ _ (by norm_num) (by decide)
  rcases (Nat.Prime.dvd_mul hq).mp hdvd with h | hdvd
  · rw [(Nat.prime_dvd_prime_iff_eq hq (by norm_num)).mp h]
    exact lucas_pow_ne _ _ _ (by norm_num) (by decide)
  rcases (Nat.Prime.dvd_mul hq).mp hdvd with h | hdvd
  · rw [(Nat.prime_dvd_prime_iff_eq hq (by norm_num)).mp h]
    exact lucas_pow_ne _ _ _ (by norm_num) (by decide)
  rcases (Nat.Prime.dvd_mul hq).mp hdvd with h | hdvd
  · rw [(Nat.prime_dvd_prime_iff_eq hq (by norm_num)).mp h]
    exact lucas_pow_ne _ _ _ (by norm_num) (by decide)
  rcases (Nat.Prime.dvd_mul hq).mp hdvd with h | hdvd
  · rw [(Nat.prime_dvd_prime_iff_eq hq (by norm_num)).mp h]
    exact lucas_pow_ne _ _ _ (by norm_num) (by decide)
  rcases (Nat.Prime.dvd_mul hq).mp hdvd with h | hdvd
  · rw [(Nat.prime_dvd_prime_iff_eq hq (by norm_num)).mp h]
    exact lucas_pow_ne _ _ _ (by norm_num) (by decide)
  rcases (Nat.Prime.dvd_mul hq).mp hdvd with h | hdvd
  · rw [(Nat.prime_dvd_prime_iff_eq hq (by norm_num)).mp h]
    exact lucas_pow_ne _ _ _ (by norm_num) (by decide)
  rcases (Nat.Prime.dvd_mul hq).mp hdvd with h | hdvd
  · rw [(Nat.prime_dvd_prime_iff_eq hq prime_M7a).mp h]
    exact lucas_pow_ne _ _ _ (by norm_num) (by decide)
  rw [show q = 107590001 from (Nat.prime_dvd_prime_iff_eq hq prime_M9a).mp hdvd]
  exact lucas_pow_ne _ _ _ (by norm_num) (by decide)

set_option maxRecDepth 40000 in
theorem prime_Q72 : Nat.Prime 205115282021455665897114700593932402728804164701536103180137503955397371 := by
  have hfac : (205115282021455665897114700593932402728804164701536103180137503955397371 - 1 : ℕ) = 2 * (3 * (5 * (29 ^ 2 * (31 * (7723 * (132896956044521568488119 * (255515944373312847190720520512484175977))))))) := by norm_num
  refine lucas_primality _ ((10 : ℕ) : ZMod 205115282021455665897114700593932402728804164701536103180137503955397371)
    (lucas_pow_eq _ _ _ (by decide)) ?_
  intro q hq hdvd
  rw [hfac] at hdvd
  rcases (Nat.Prime.dvd_mul hq).mp hdvd with h | hdvd
  · rw [(Nat.prime_dvd_prime_iff_eq hq (by norm_num)).mp h]
    exact lucas_pow_ne _ _ _ (by norm_num) (by decide)
  rcases (Nat.Prime.dvd_mul hq).mp hdvd with h | hdvd
  · rw [(Nat.prime_dvd_prime_iff_eq hq (by norm_num)).mp h]
    exact lucas_pow_ne _ _ _ (by norm_num) (by decide)
  rcases (Nat.Prime.dvd_mul hq).mp hdvd with h | hdvd
  · rw [(Nat.prime_dvd_prime_iff_eq hq (by norm_num)).mp h]
    exact lucas_pow_ne _ _ _ (by norm_num) (by decide)
  rcases (Nat.Prime.dvd_mul hq).mp hdvd with h | hdvd
  · rw [prime_of_dvd_prime_pow hq (by norm_num) h]
    exact lucas_pow_ne _ _ _ (by norm_num) (by decide)
  rcases (Nat.Prime.dvd_mul hq).mp hdvd with h | hdvd
  · rw [(Nat.prime_dvd_prime_iff_eq hq (by norm_num)).mp h]
    exact lucas_pow_ne _ _ _ (by norm_num) (by decide)
  rcases (Nat.Prime.dvd_mul hq).mp hdvd with h | hdvd
  · rw [(Nat.prime_dvd_prime_iff_eq hq (by norm_num)).mp h]
    exact lucas_pow_ne _ _ _ (by norm_num) (by decide)
  rcases (Nat.Prime.dvd_mul hq).mp hdvd with h | hdvd
  · rw [(Nat.prime_dvd_prime_iff_eq hq prime_F24).mp h]
    exact lucas_pow_ne _ _ _ (by norm_num) (by decide)
  rw [show q = 255515944373312847190720520512484175977 from (Nat.prime_dvd_prime_iff_eq hq prime_F39).mp hdvd]
  exact lucas_pow_ne _ _ _ (by norm_num) (by decide)

set_option maxRecDepth 40000 in
theorem prime_P77 : Nat.Prime 115792089237316195423570985008687907853269984665640564039457584007908834671663 := by
  have hfac : (115792089237316195423570985008687907853269984665640564039457584007908834671663 - 1 : ℕ) = 2 * (3 * (7 * (13441 * (205115282021455665897114700593932402728804164701536103180137503955397371)))) := by norm_num
  refine lucas_primality _ ((3 : ℕ) : ZMod 115792089237316195423570985008687907853269984665640564039457584007908834671663)
    (lucas_pow_eq _ _ _ (by decide)) ?_
  intro q hq hdvd
  rw [hfac] at hdvd
  rcases (Nat.Prime.dvd_mul hq).mp hdvd with h | hdvd
  · rw [(Nat.prime_dvd_prime_iff_eq hq (by norm_num)).mp h]
    exact lucas_pow_ne _ _ _ (by norm_num) (by decide)
  rcases (Nat.Prime.dvd_mul hq).mp hdvd with h | hdvd
  · rw [(Nat.prime_dvd_prime_iff_eq hq (by norm_num)).mp h]
    exact lucas_pow_ne _ _ _ (by norm_num) (by decide)
  rcases (Nat.Prime.dvd_mul hq).mp hdvd with h | hdvd
  · rw [(Nat.prime_dvd_prime_iff_eq hq (by norm_num)).mp h]
    exact lucas_pow_ne _ _ _ (by norm_num) (by decide)
  rcases (Nat.Prime.dvd_mul hq).mp hdvd with h | hdvd
  · rw [(Nat.prime_dvd_prime_iff_eq hq (by norm_num)).mp h]
    exact lucas_pow_ne _ _ _ (by norm_num) (by decide)
  rw [show q = 205115282021455665897114700593932402728804164701536103180137503955397371 from (Nat.prime_dvd_prime_iff_eq hq prime_Q72).mp hdvd]
  exact lucas_pow_ne _ _ _ (by norm_num) (by decide)


/-! ## Claim C7: the prime field, the Weierstrass model, and ECDH -/

/-- The secp256k1 field modulus as a natural number. -/
def pN : ℕ := 115792089237316195423570985008687907853269984665640564039457584007908834671663

theorem pN_prime : Nat.Prime pN := prime_P77

instance factPN : Fact (Nat.Prime pN) := ⟨pN_prime⟩

instance : NeZero pN := ⟨by norm_num [pN]⟩

theorem pMod_eq_pN : pMod = (pN : ℤ) := by norm_num [pMod, pN]

theorem two_ne_zero_pN : (2 : ZMod pN) ≠ 0 := by
  intro h
  have h2 : ((2 : ℕ) : ZMod pN) = 0 := by push_cast; exact h
  rw [ZMod.natCast_zmod_eq_zero_iff_dvd] at h2
  have := Nat.le_of_dvd (by norm_num) h2
  norm_num [pN] at this

set_option maxRecDepth 40000 in
/-- `7` is a quadratic non-residue mod `p`: no curve point has `x = 0`. -/
theorem no_x0 (y : ZMod pN) : y ^ 2 ≠ 7 := by
  intro h
  have h7 : ((7 : ℕ) : ZMod pN) = (7 : ZMod pN) := by push_cast; rfl
  have hy0 : y ≠ 0 := by
    intro h0
    rw [h0] at h
    rw [show ((0 : ZMod pN)) ^ 2 = 0 from by ring] at h
    have h2 : ((7 : ℕ) : ZMod pN) = 0 := by rw [h7, ← h]
    rw [ZMod.natCast_zmod_eq_zero_iff_dvd] at h2
    have := Nat.le_of_dvd (by norm_num) h2
    norm_num [pN] at this
  have key : ((7 : ℕ) : ZMod pN) ^ ((pN - 1) / 2) = 1 := by
    rw [h7, ← h, ← pow_mul, show 2 * ((pN - 1) / 2) = pN - 1 from by decide]
    exact ZMod.pow_card_sub_one_eq_one hy0
  exact lucas_pow_ne pN 7 ((pN - 1) / 2) (by norm_num [pN]) (by decide) key

set_option maxRecDepth 40000 in
/-- `-7` is not a cube mod `p`: no curve point has `y = 0`. -/
theorem no_y0 (x : ZMod pN) : x ^ 3 + 7 ≠ 0 := by
  intro h
  have h7 : ((pN - 7 : ℕ) : ZMod pN) = -7 := by
    rw [Nat.cast_sub (by norm_num [pN]), ZMod.natCast_self]
    push_cast
    ring
  have hx0 : x ≠ 0 := by
    intro h0
    rw [h0, show ((0 : ZMod pN)) ^ 3 = 0 from by ring, zero_add] at h
    have h2 : ((7 : ℕ) : ZMod pN) = 0 := by push_cast; exact h
    rw [ZMod.natCast_zmod_eq_zero_iff_dvd] at h2
    have := Nat.le_of_dvd (by norm_num) h2
    norm_num [pN] at this
  have hx3 : x ^ 3 = -7 := by linear_combination h
  have key : ((pN - 7 : ℕ) : ZMod pN) ^ ((pN - 1) / 3) = 1 := by
    rw [h7, ← hx3, ← pow_mul, show 3 * ((pN - 1) / 3) = pN - 1 from by decide]
    exact ZMod.pow_card_sub_one_eq_one hx0
  exact lucas_pow_ne pN (pN - 7) ((pN - 1) / 3) (by norm_num [pN]) (by decide) key

/-- The secp256k1 curve `y² = x³ + 7` as a Mathlib affine Weierstrass
curve over the prime field. -/
def secpW : WeierstrassCurve.Affine (ZMod pN) := ⟨0, 0, 0, 0, 7⟩

theorem secpW_equation_iff (x y : ZMod pN) :
    secpW.Equation x y ↔ y ^ 2 = x ^ 3 + 7 := by
  rw [WeierstrassCurve.Affine.equation_iff]
  show y ^ 2 + 0 * x * y + 0 * y = x ^ 3 + 0 * x ^ 2 + 0 * x + 7 ↔ _
  constructor <;> intro h <;> linear_combination h

theorem secpW_negY (x y : ZMod pN) : secpW.negY x y = -y := by
  show -y - 0 * x - 0 = -y
  ring

theorem eqn_y_ne (x y : ZMod pN) (h : secpW.Equation x y) : y ≠ 0 := by
  intro h0
  rw [secpW_equation_iff, h0] at h
  exact no_y0 x (by linear_combination -h)

theorem eqn_x_ne (x y : ZMod pN) (h : secpW.Equation x y) : x ≠ 0 := by
  intro h0
  rw [secpW_equation_iff, h0] at h
  exact no_x0 y (by linear_combination h)

theorem secpW_nonsingular (x y : ZMod pN) (h : secpW.Equation x y) :
    secpW.Nonsingular x y := by
  rw [WeierstrassCurve.Affine.nonsingular_iff]
  refine ⟨h, Or.inr ?_⟩
  rw [show secpW.a₁ = 0 from rfl, show secpW.a₃ = 0 from rfl]
  have hy := eqn_y_ne x y h
  intro hc
  apply two_ne_zero_pN
  have h2y : (2 : ZMod pN) * y = 0 := by linear_combination hc
  rcases mul_eq_zero.mp h2y with h | h
  · exact h
  · exact absurd h hy

theorem fieldElement_eq (a b : FieldElement) (h1 : a.num = b.num)
    (h2 : a.modulo = b.modulo) : a = b := by
  cases a
  cases b
  simp_all

theorem cast_inj_pMod {a b : ℤ} (ha0 : 0 ≤ a) (ha : a < pMod) (hb0 : 0 ≤ b)
    (hb : b < pMod) (h : ((a : ℤ) : ZMod pN) = ((b : ℤ) : ZMod pN)) : a = b := by
  have hd : ((pN : ℕ) : ℤ) ∣ a - b := by
    rwa [← sub_eq_zero, ← Int.cast_sub, ZMod.intCast_zmod_eq_zero_iff_dvd] at h
  rw [← pMod_eq_pN] at hd
  rcases hd with ⟨c, hc⟩
  simp only [pMod] at ha hb hc
  omega

theorem cast_num_ne_zero {a : FieldElement} (hm : a.modulo = pMod)
    (hn : a.normalized) (h : a.num ≠ 0) : ((a.num : ℤ) : ZMod pN) ≠ 0 := by
  intro hc
  apply h
  have h0 : (((0 : ℤ) : ℤ) : ZMod pN) = ((a.num : ℤ) : ZMod pN) := by
    rw [hc]
    push_cast
    rfl
  exact (cast_inj_pMod (le_refl 0) (by norm_num [pMod]) hn.1 (hm ▸ hn.2)
    h0).symm

theorem modAndNew_as_fadd (a b : FieldElement) :
    a.fadd b = modAndNew (a.num + b.num) a.modulo := rfl

theorem fadd_normalized (a b : FieldElement) (hm : 0 < a.modulo) :
    (a.fadd b).normalized := by
  rw [modAndNew_as_fadd]
  exact modAndNew_normalized _ _ hm

theorem fsub_normalized (a b : FieldElement) (hm : 0 < a.modulo) :
    (a.fsub b).normalized := modAndNew_normalized _ _ hm

theorem fmul_normalized (a b : FieldElement) (hm : 0 < a.modulo) :
    (a.fmul b).normalized := modAndNew_normalized _ _ hm

theorem faddBig_normalized (a : FieldElement) (c : Int) (hm : 0 < a.modulo) :
    (a.faddBig c).normalized := fadd_normalized _ _ hm

theorem bigMul_normalized (c : Int) (a : FieldElement) (hm : 0 < a.modulo) :
    (a.bigMul c).normalized := modAndNew_normalized _ _ hm

theorem pow_u_normalized (a : FieldElement) (e : Int) (hm : 0 < a.modulo)
    (he : 0 ≤ e) : (a.pow_u e).normalized := by
  rw [pow_u_eq a e hm he]
  exact ⟨Int.emod_nonneg _ (by omega), Int.emod_lt_of_pos _ hm⟩

/-- Valid embedded secp256k1 points: correct group, field modulus,
normalized coordinates, and either on the curve or the `(0,0)` sentinel. -/
def SecpPt (P : Point) : Prop :=
  P.group = secpGroup ∧ P.x.modulo = pMod ∧ P.y.modulo = pMod ∧
  P.x.normalized ∧ P.y.normalized ∧
  (P.isOnCurve = true ∨ (P.x.num = 0 ∧ P.y.num = 0))

/-- Correspondence between an embedded point and a Mathlib nonsingular
point: the sentinel maps to the group identity, and a nonzero point maps to
the affine point with the same coordinates in `ZMod p`. -/
def Corr (P : Point) : secpW.Point → Prop
  | WeierstrassCurve.Affine.Point.zero => P.x.num = 0
  | @WeierstrassCurve.Affine.Point.some _ _ _ x y _ =>
      (((P.x.num : ℤ) : ZMod pN) = x ∧ ((P.y.num : ℤ) : ZMod pN) = y) ∧
        P.x.num ≠ 0

theorem pMod_pos : (0 : ℤ) < pMod := by norm_num [pMod]

theorem pN_pos : 0 < pN := by norm_num [pN]

theorem cast_curveLHS (P : Point) (hy : P.y.modulo = pMod) :
    ((((P.y.pow_u 2).num : ℤ)) : ZMod pN) = ((P.y.num : ℤ) : ZMod pN) ^ 2 := by
  rw [cast_pow_u pN pN_pos _ 2 (by rw [hy, pMod_eq_pN]) (by omega)]
  rfl

theorem cast_curveRHS (P : Point) (hg : P.group = secpGroup)
    (hx : P.x.modulo = pMod) :
    (((((P.x.pow_u 3).fadd (P.x.bigMul P.group.a)).faddBig P.group.b).num :
      ℤ) : ZMod pN) = ((P.x.num : ℤ) : ZMod pN) ^ 3 + 7 := by
  have hxm : P.x.modulo = ((pN : ℕ) : ℤ) := by rw [hx, pMod_eq_pN]
  rw [cast_faddBig pN pN_pos _ _ (by rw [fadd_modulo, pow_u_modulo]; exact hxm)]
  rw [cast_fadd pN pN_pos _ _ (by rw [pow_u_modulo]; exact hxm)]
  rw [cast_bigMul pN pN_pos _ _ hxm]
  rw [cast_pow_u pN pN_pos _ 3 hxm (by omega)]
  rw [hg, show secpGroup.a = 0 from rfl, show secpGroup.b = 7 from rfl]
  push_cast
  ring_nf

theorem onCurve_iff (P : Point) (hg : P.group = secpGroup)
    (hx : P.x.modulo = pMod) (hy : P.y.modulo = pMod)
    (hnx : P.x.normalized) (hny : P.y.normalized) :
    P.isOnCurve = true ↔
      secpW.Equation ((P.x.num : ℤ) : ZMod pN) ((P.y.num : ℤ) : ZMod pN) := by
  rw [secpW_equation_iff]
  unfold Point.isOnCurve
  rw [beq_iff_eq]
  constructor
  · intro h
    have hc := congrArg (fun t : FieldElement => ((t.num : ℤ) : ZMod pN)) h
    simp only at hc
    rw [cast_curveLHS P hy, cast_curveRHS P hg hx] at hc
    exact hc
  · intro h
    have hmL : (P.y.pow_u 2).modulo = pMod := by rw [pow_u_modulo, hy]
    have hmR : ((((P.x.pow_u 3).fadd (P.x.bigMul P.group.a)).faddBig
        P.group.b)).modulo = pMod := by
      rw [faddBig_modulo, fadd_modulo, pow_u_modulo, hx]
    have hnL : (P.y.pow_u 2).normalized :=
      pow_u_normalized _ _ (by rw [hy]; exact pMod_pos) (by omega)
    have hnR : ((((P.x.pow_u 3).fadd (P.x.bigMul P.group.a)).faddBig
        P.group.b)).normalized :=
      faddBig_normalized _ _
        (by rw [fadd_modulo, pow_u_modulo, hx]; exact pMod_pos)
    apply fieldElement_eq
    · apply cast_inj_pMod hnL.1 (by rw [← hmL]; exact hnL.2) hnR.1
        (by rw [← hmR]; exact hnR.2)
      rw [cast_curveLHS P hy, cast_curveRHS P hg hx]
      exact h
    · rw [hmL, hmR]

theorem secpPt_equation {P : Point} (hP : SecpPt P) (hx0 : P.x.num ≠ 0) :
    secpW.Equation ((P.x.num : ℤ) : ZMod pN) ((P.y.num : ℤ) : ZMod pN) := by
  obtain ⟨hg, hx, hy, hnx, hny, hcurve | hsent⟩ := hP
  · exact (onCurve_iff P hg hx hy hnx hny).mp hcurve
  · exact absurd hsent.1 hx0

theorem secpPt_sentinel {P : Point} (hP : SecpPt P) (hx0 : P.x.num = 0) :
    P.y.num = 0 := by
  obtain ⟨hg, hx, hy, hnx, hny, hcurve | hsent⟩ := hP
  · exfalso
    have heq := (onCurve_iff P hg hx hy hnx hny).mp hcurve
    apply eqn_x_ne _ _ heq
    rw [hx0]
    push_cast
    rfl
  · exact hsent.2

theorem secpPt_eq_sentinel {P : Point} (hP : SecpPt P) (hx0 : P.x.num = 0) :
    P = ⟨⟨0, pMod⟩, ⟨0, pMod⟩, secpGroup⟩ := by
  have hy0 := secpPt_sentinel hP hx0
  obtain ⟨hg, hx, hy, hnx, hny, hco⟩ := hP
  have hx' : P.x = ⟨0, pMod⟩ := fieldElement_eq _ _ hx0 hx
  have hy' : P.y = ⟨0, pMod⟩ := fieldElement_eq _ _ hy0 hy
  calc P = ⟨P.x, P.y, P.group⟩ := rfl
    _ = ⟨⟨0, pMod⟩, ⟨0, pMod⟩, secpGroup⟩ := by rw [hx', hy', hg]

theorem secpPt_sentinel_valid : SecpPt ⟨⟨0, pMod⟩, ⟨0, pMod⟩, secpGroup⟩ :=
  ⟨rfl, rfl, rfl, ⟨le_refl 0, pMod_pos⟩, ⟨le_refl 0, pMod_pos⟩,
    Or.inr ⟨rfl, rfl⟩⟩

theorem num_ne_of_ne {a b : FieldElement} (hm : a.modulo = b.modulo)
    (h : a ≠ b) : a.num ≠ b.num := fun hn => h (fieldElement_eq _ _ hn hm)

set_option maxHeartbeats 1600000 in
/-- The embedded `add_assign` tracks the Mathlib group law on nonsingular
points. -/
theorem Corr_addE {P Q : Point} (hP : SecpPt P) (hQ : SecpPt Q)
    (T U : secpW.Point) (hPT : Corr P T) (hQU : Corr Q U) :
    SecpPt (Point.addE P Q) ∧ Corr (Point.addE P Q) (T + U) := by
  rcases T with _ | @⟨x1, y1, h1⟩
  · have h0 : P.x.num = 0 := hPT
    rw [show Point.addE P Q = Q from by unfold Point.addE; rw [if_pos h0]]
    rw [WeierstrassCurve.Affine.Point.zero_def, zero_add]
    exact ⟨hQ, hQU⟩
  · obtain ⟨⟨hx1, hy1⟩, hx0⟩ := hPT
    rcases U with _ | @⟨x2, y2, h2⟩
    · have hq0 : Q.x.num = 0 := hQU
      rw [show Point.addE P Q = P from by
        unfold Point.addE; rw [if_neg hx0, if_pos hq0]]
      rw [WeierstrassCurve.Affine.Point.zero_def, add_zero]
      exact ⟨hP, ⟨⟨hx1, hy1⟩, hx0⟩⟩
    · obtain ⟨⟨hx2, hy2⟩, hq0⟩ := hQU
      have hE1 : secpW.Equation x1 y1 := by
        rw [← hx1, ← hy1]
        exact secpPt_equation hP hx0
      have hE2 : secpW.Equation x2 y2 := by
        rw [← hx2, ← hy2]
        exact secpPt_equation hQ hq0
      have hy1ne : y1 ≠ 0 := eqn_y_ne _ _ hE1
      have hy2ne : y2 ≠ 0 := eqn_y_ne _ _ hE2
      obtain ⟨hPg, hPx, hPy, hPnx, hPny, _⟩ := hP
      obtain ⟨hQg, hQx, hQy, hQnx, hQny, _⟩ := hQ
      have hmods : P.x.modulo = Q.x.modulo := by rw [hPx, hQx]
      have hmodsY : P.y.modulo = Q.y.modulo := by rw [hPy, hQy]
      have hxiff : P.x = Q.x ↔ x1 = x2 := by
        constructor
        · intro h
          rw [← hx1, ← hx2, h]
        · intro h
          refine fieldElement_eq _ _ ?_ hmods
          apply cast_inj_pMod hPnx.1 (by rw [← hPx]; exact hPnx.2) hQnx.1
            (by rw [← hQx]; exact hQnx.2)
          rw [hx1, hx2, h]
      by_cases hcond : (P.x = Q.x ∧ P.y ≠ Q.y) ∨ (P = Q ∧ P.y.num = 0)
      · have hv : x1 = x2 ∧ y1 = secpW.negY x2 y2 := by
          rcases hcond with ⟨hxeq, hyne⟩ | ⟨hPQ, hy0⟩
          · have hx12 : x1 = x2 := hxiff.mp hxeq
            have hyn : P.y.num ≠ Q.y.num := num_ne_of_ne hmodsY hyne
            have hy12 : y1 ≠ y2 := by
              intro hc
              apply hyn
              apply cast_inj_pMod hPny.1 (by rw [← hPy]; exact hPny.2) hQny.1
                (by rw [← hQy]; exact hQny.2)
              rw [hy1, hy2, hc]
            rcases WeierstrassCurve.Affine.Y_eq_of_X_eq hE1 hE2 hx12 with h | h
            · exact absurd h hy12
            · exact ⟨hx12, h⟩
          · exfalso
            apply hy1ne
            rw [← hy1, hy0]
            push_cast
            rfl
        rw [show Point.addE P Q = ⟨FieldElement.infinity P.x.modulo,
            FieldElement.infinity P.x.modulo, P.group⟩ from by
          unfold Point.addE; rw [if_neg hx0, if_neg hq0, if_pos hcond]]
        rw [WeierstrassCurve.Affine.Point.add_of_Y_eq hv.1 hv.2]
        constructor
        · rw [hPx, hPg]
          exact secpPt_sentinel_valid
        · show (FieldElement.infinity P.x.modulo).num = 0
          rfl
      · have hsame : P.x = Q.x → P = Q ∧ P.y.num ≠ 0 := by
          intro hxeqF
          have hyeqF : P.y = Q.y := by
            by_contra hne
            exact hcond (Or.inl ⟨hxeqF, hne⟩)
          have hPQ : P = Q := by
            calc P = ⟨P.x, P.y, P.group⟩ := rfl
              _ = ⟨Q.x, Q.y, Q.group⟩ := by rw [hxeqF, hyeqF, hPg, hQg]
              _ = Q := rfl
          exact ⟨hPQ, fun h0 => hcond (Or.inr ⟨hPQ, h0⟩)⟩
        have hxy : x1 = x2 → y1 ≠ secpW.negY x2 y2 := by
          intro hx12 hy12
          obtain ⟨hPQ, hyne0⟩ := hsame (hxiff.mpr hx12)
          have hy12' : y1 = y2 := by rw [← hy1, ← hy2, hPQ]
          rw [secpW_negY, ← hy12'] at hy12
          apply hy1ne
          have h2 : (2 : ZMod pN) * y1 = 0 := by linear_combination hy12
          rcases mul_eq_zero.mp h2 with h | h
          · exact absurd h two_ne_zero_pN
          · exact h
        rw [WeierstrassCurve.Affine.Point.add_of_imp hxy]
        have haddE : Point.addE P Q =
            ⟨(((Point.getSlope P Q).pow_u 2).fsub P.x).fsub Q.x,
             ((Point.getSlope P Q).fmul (P.x.fsub
               ((((Point.getSlope P Q).pow_u 2).fsub P.x).fsub Q.x))).fsub P.y,
             P.group⟩ := by
          unfold Point.addE
          rw [if_neg hx0, if_neg hq0, if_neg hcond]
        have hyx : P.y.modulo = P.x.modulo := by rw [hPx, hPy]
        have hsl : (Point.getSlope P Q).modulo = ((pN : ℕ) : ℤ) := by
          rw [getSlope_modulo P Q hyx, hPx, pMod_eq_pN]
        have ha1 : secpW.a₁ = 0 := rfl
        have ha2 : secpW.a₂ = 0 := rfl
        have ha3 : secpW.a₃ = 0 := rfl
        have ha4 : secpW.a₄ = 0 := rfl
        have hslope : (((Point.getSlope P Q).num : ℤ) : ZMod pN) =
            secpW.slope x1 x2 y1 y2 := by
          by_cases hx12 : P.x = Q.x
          · obtain ⟨hPQ, hyne0⟩ := hsame hx12
            have hx12' : x1 = x2 := hxiff.mp hx12
            unfold Point.getSlope
            rw [if_neg (fun hh => hh hx12)]
            rw [cast_fdiv pN (by norm_num [pN]) _ _
              (by rw [faddBig_modulo, bigMul_modulo, pow_u_modulo, hPx,
                pMod_eq_pN])]
            rw [cast_faddBig pN pN_pos _ _
              (by rw [bigMul_modulo, pow_u_modulo, hPx, pMod_eq_pN])]
            rw [cast_bigMul pN pN_pos _ _
              (by rw [pow_u_modulo, hPx, pMod_eq_pN])]
            rw [cast_pow_u pN pN_pos _ 2 (by rw [hPx, pMod_eq_pN]) (by omega)]
            rw [cast_bigMul pN pN_pos _ _ (by rw [hPy, pMod_eq_pN])]
            rw [WeierstrassCurve.Affine.slope_of_Y_ne hx12' (hxy hx12')]
            rw [secpW_negY, ha1, ha2, ha4]
            rw [hPg, show secpGroup.a = 0 from rfl]
            rw [hx1, hy1]
            rw [show (2 : ℤ).toNat = 2 from rfl]
            push_cast
            rw [show y1 - -y1 = 2 * y1 from by ring]
            rw [div_eq_mul_inv]
            rw [show y1 * 2 = 2 * y1 from mul_comm _ _]
            congr 1
            ring
          · have hx12' : x1 ≠ x2 := fun h => hx12 (hxiff.mpr h)
            unfold Point.getSlope
            rw [if_pos hx12]
            rw [cast_fdiv pN (by norm_num [pN]) _ _
              (by rw [fsub_modulo, hPy, pMod_eq_pN])]
            rw [cast_fsub pN pN_pos _ _ (by rw [hPy, pMod_eq_pN])]
            rw [cast_fsub pN pN_pos _ _ (by rw [hPx, pMod_eq_pN])]
            rw [WeierstrassCurve.Affine.slope_of_X_ne hx12']
            rw [hx1, hx2, hy1, hy2, div_eq_mul_inv]
        have hxcoord : (((Point.addE P Q).x.num : ℤ) : ZMod pN) =
            secpW.addX x1 x2 (secpW.slope x1 x2 y1 y2) := by
          rw [show (Point.addE P Q).x =
            (((Point.getSlope P Q).pow_u 2).fsub P.x).fsub Q.x from by
              rw [haddE]]
          rw [cast_fsub pN pN_pos _ _
            (by rw [fsub_modulo, pow_u_modulo, hsl])]
          rw [cast_fsub pN pN_pos _ _ (by rw [pow_u_modulo, hsl])]
          rw [cast_pow_u pN pN_pos _ 2 hsl (by omega)]
          rw [hslope, hx1, hx2]
          rw [show WeierstrassCurve.Affine.addX secpW x1 x2
              (secpW.slope x1 x2 y1 y2) = (secpW.slope x1 x2 y1 y2) ^ 2 +
              secpW.a₁ * (secpW.slope x1 x2 y1 y2) - secpW.a₂ - x1 - x2
            from rfl]
          rw [ha1, ha2]
          rw [show (2 : ℤ).toNat = 2 from rfl]
          ring
        have hycoord : (((Point.addE P Q).y.num : ℤ) : ZMod pN) =
            secpW.addY x1 x2 y1 (secpW.slope x1 x2 y1 y2) := by
          rw [show (Point.addE P Q).y =
            ((Point.getSlope P Q).fmul (P.x.fsub
              ((((Point.getSlope P Q).pow_u 2).fsub P.x).fsub Q.x))).fsub P.y
            from by rw [haddE]]
          rw [cast_fsub pN pN_pos _ _ (by rw [fmul_modulo, hsl])]
          rw [cast_fmul pN pN_pos _ _ hsl]
          rw [cast_fsub pN pN_pos _ _ (by rw [hPx, pMod_eq_pN])]
          rw [cast_fsub pN pN_pos _ _
            (by rw [fsub_modulo, pow_u_modulo, hsl])]
          rw [cast_fsub pN pN_pos _ _ (by rw [pow_u_modulo, hsl])]
          rw [cast_pow_u pN pN_pos _ 2 hsl (by omega)]
          rw [hslope, hx1, hx2, hy1]
          rw [show WeierstrassCurve.Affine.addY secpW x1 x2 y1
              (secpW.slope x1 x2 y1 y2) = secpW.negY
                (secpW.addX x1 x2 (secpW.slope x1 x2 y1 y2))
                ((secpW.slope x1 x2 y1 y2) *
                  (secpW.addX x1 x2 (secpW.slope x1 x2 y1 y2) - x1) + y1)
            from rfl]
          rw [secpW_negY]
          rw [show WeierstrassCurve.Affine.addX secpW x1 x2
              (secpW.slope x1 x2 y1 y2) = (secpW.slope x1 x2 y1 y2) ^ 2 +
              secpW.a₁ * (secpW.slope x1 x2 y1 y2) - secpW.a₂ - x1 - x2
            from rfl]
          rw [ha1, ha2]
          rw [show (2 : ℤ).toNat = 2 from rfl]
          ring
        have hres := WeierstrassCurve.Affine.nonsingular_add h1 h2 hxy
        have hresE : secpW.Equation
            (((Point.addE P Q).x.num : ℤ) : ZMod pN)
            (((Point.addE P Q).y.num : ℤ) : ZMod pN) := by
          rw [hxcoord, hycoord]
          exact hres.1
        have hresx0 : (Point.addE P Q).x.num ≠ 0 := by
          intro hc
          apply eqn_x_ne _ _ hresE
          rw [hc]
          push_cast
          rfl
        have hmodx : (Point.addE P Q).x.modulo = pMod := by
          rw [show (Point.addE P Q).x =
            (((Point.getSlope P Q).pow_u 2).fsub P.x).fsub Q.x from by
              rw [haddE]]
          rw [fsub_modulo, fsub_modulo, pow_u_modulo, getSlope_modulo P Q hyx,
            hPx]
        have hmody : (Point.addE P Q).y.modulo = pMod := by
          rw [show (Point.addE P Q).y =
            ((Point.getSlope P Q).fmul (P.x.fsub
              ((((Point.getSlope P Q).pow_u 2).fsub P.x).fsub Q.x))).fsub P.y
            from by rw [haddE]]
          rw [fsub_modulo, fmul_modulo, getSlope_modulo P Q hyx, hPx]
        have hnormx : (Point.addE P Q).x.normalized := by
          rw [show (Point.addE P Q).x =
            (((Point.getSlope P Q).pow_u 2).fsub P.x).fsub Q.x from by
              rw [haddE]]
          exact fsub_normalized _ _
            (by rw [fsub_modulo, pow_u_modulo, hsl]; exact_mod_cast pN_pos)
        have hnormy : (Point.addE P Q).y.normalized := by
          rw [show (Point.addE P Q).y =
            ((Point.getSlope P Q).fmul (P.x.fsub
              ((((Point.getSlope P Q).pow_u 2).fsub P.x).fsub Q.x))).fsub P.y
            from by rw [haddE]]
          exact fsub_normalized _ _ (by rw [fmul_modulo, hsl]; exact_mod_cast pN_pos)
        have hgroup : (Point.addE P Q).group = secpGroup := by
          rw [show (Point.addE P Q).group = P.group from by rw [haddE]]
          exact hPg
        refine ⟨⟨hgroup, hmodx, hmody, hnormx, hnormy, Or.inl ?_⟩,
          ⟨⟨hxcoord, hycoord⟩, hresx0⟩⟩
        exact (onCurve_iff _ hgroup hmodx hmody hnormx hnormy).mpr hresE

/-- The double-and-add loop tracks Mathlib scalar multiplication. -/
theorem Corr_mulGo (fuel : Nat) : ∀ (k : Nat) (R A : Point)
    (Tr Ta : secpW.Point), k ≤ fuel → SecpPt R → SecpPt A → Corr R Tr →
    Corr A Ta → SecpPt (Point.mulGo fuel k R A) ∧
      Corr (Point.mulGo fuel k R A) (Tr + k • Ta) := by
  induction fuel with
  | zero =>
    intro k R A Tr Ta hk hR hA hTr hTa
    have hk0 : k = 0 := by omega
    subst hk0
    rw [show Point.mulGo 0 0 R A = R from rfl, zero_nsmul, add_zero]
    exact ⟨hR, hTr⟩
  | succ fuel ih =>
    intro k R A Tr Ta hk hR hA hTr hTa
    by_cases hk0 : k = 0
    · subst hk0
      rw [show Point.mulGo (fuel + 1) 0 R A = R from by
        simp only [Point.mulGo]; simp]
      rw [zero_nsmul, add_zero]
      exact ⟨hR, hTr⟩
    · rw [show Point.mulGo (fuel + 1) k R A = Point.mulGo fuel (k / 2)
        (if k % 2 = 1 then Point.addE R A else R) (Point.addE A A) from by
        simp only [Point.mulGo]; rw [if_neg hk0]]
      have hAA := Corr_addE hA hA Ta Ta hTa hTa
      have hR' : SecpPt (if k % 2 = 1 then Point.addE R A else R) ∧
          Corr (if k % 2 = 1 then Point.addE R A else R)
            (Tr + (k % 2) • Ta) := by
        by_cases hpar : k % 2 = 1
        · rw [if_pos hpar, hpar, one_nsmul]
          exact Corr_addE hR hA Tr Ta hTr hTa
        · rw [if_neg hpar, show k % 2 = 0 from by omega, zero_nsmul, add_zero]
          exact ⟨hR, hTr⟩
      have hrec := ih (k / 2) _ _ _ _ (by omega) hR'.1 hAA.1 hR'.2 hAA.2
      refine ⟨hrec.1, ?_⟩
      have harith : Tr + (k % 2) • Ta + (k / 2) • (Ta + Ta) = Tr + k • Ta := by
        rw [← two_nsmul Ta, ← mul_nsmul Ta 2 (k / 2), add_assoc, ← add_nsmul]
        rw [show k % 2 + 2 * (k / 2) = k from by omega]
      rw [← harith]
      exact hrec.2

theorem secpPt_genZero (P : Point) (hx : P.x.modulo = pMod)
    (hg : P.group = secpGroup) :
    SecpPt (Point.genZero P) ∧ Corr (Point.genZero P) 0 := by
  have hnew : FieldElement.new 0 P.x.modulo = ⟨0, pMod⟩ := by
    unfold FieldElement.new
    rw [hx, Int.zero_emod]
  rw [show Point.genZero P = ⟨⟨0, pMod⟩, ⟨0, pMod⟩, secpGroup⟩ from by
    unfold Point.genZero; rw [hnew, hg]]
  exact ⟨secpPt_sentinel_valid, rfl⟩

/-- `mul_impl_point` realizes Mathlib scalar multiplication through the
correspondence. -/
theorem Corr_mulE (k : Nat) {P : Point} (T : secpW.Point) (hP : SecpPt P)
    (hPT : Corr P T) :
    SecpPt (Point.mulE k P) ∧ Corr (Point.mulE k P) (k • T) := by
  have hgz := secpPt_genZero P hP.2.1 hP.1
  have h := Corr_mulGo k k (Point.genZero P) P 0 T le_rfl hgz.1 hP hgz.2 hPT
  rw [zero_add] at h
  exact h

/-- Two valid embedded points tracking one Mathlib point are equal. -/
theorem Corr_inj {P Q : Point} (T : secpW.Point) (hP : SecpPt P)
    (hQ : SecpPt Q) (hPT : Corr P T) (hQT : Corr Q T) : P = Q := by
  rcases T with _ | @⟨x, y, h⟩
  · rw [secpPt_eq_sentinel hP hPT, secpPt_eq_sentinel hQ hQT]
  · obtain ⟨⟨hx1, hy1⟩, _⟩ := hPT
    obtain ⟨⟨hx2, hy2⟩, _⟩ := hQT
    obtain ⟨hPg, hPx, hPy, hPnx, hPny, _⟩ := hP
    obtain ⟨hQg, hQx, hQy, hQnx, hQny, _⟩ := hQ
    have hxn : P.x.num = Q.x.num :=
      cast_inj_pMod hPnx.1 (by rw [← hPx]; exact hPnx.2) hQnx.1
        (by rw [← hQx]; exact hQnx.2) (by rw [hx1, hx2])
    have hyn : P.y.num = Q.y.num :=
      cast_inj_pMod hPny.1 (by rw [← hPy]; exact hPny.2) hQny.1
        (by rw [← hQy]; exact hQny.2) (by rw [hy1, hy2])
    calc P = ⟨P.x, P.y, P.group⟩ := rfl
      _ = ⟨Q.x, Q.y, Q.group⟩ := by
        rw [fieldElement_eq P.x Q.x hxn (by rw [hPx, hQx]),
          fieldElement_eq P.y Q.y hyn (by rw [hPy, hQy]), hPg, hQg]
      _ = Q := rfl

set_option maxRecDepth 100000 in
theorem secpPt_G : SecpPt secp.generator :=
  ⟨rfl, rfl, rfl, by decide, by decide, Or.inl (by decide)⟩

set_option maxRecDepth 100000 in
theorem secpG_x_ne : secp.generator.x.num ≠ 0 := by decide

set_option maxRecDepth 100000 in
/-- C7: ECDH symmetry — for all key pairs `(a, A)`, `(b, B)` with
`A = a·G` and `B = b·G`, `a.ecdh(B) = b.ecdh(A)`: both sides hash the same
shared point `(a·b)·G` as `SHA256(parity byte ‖ x)`, the parity byte
following the compressed-key convention. -/
theorem claim_C7 (a b : Nat) :
    ecdh a (generate_pubkey b) = ecdh b (generate_pubkey a) := by
  have hGs : SecpPt secp.generator := secpPt_G
  have hGE := secpPt_equation hGs secpG_x_ne
  have hGns := secpW_nonsingular _ _ hGE
  have hGCorr : Corr secp.generator
      (WeierstrassCurve.Affine.Point.some hGns) := ⟨⟨rfl, rfl⟩, secpG_x_ne⟩
  obtain ⟨hB, hBC⟩ := Corr_mulE b _ hGs hGCorr
  obtain ⟨hA, hAC⟩ := Corr_mulE a _ hGs hGCorr
  obtain ⟨hS1, hS1C⟩ := Corr_mulE a _ hB hBC
  obtain ⟨hS2, hS2C⟩ := Corr_mulE b _ hA hAC
  have hsw : b • (a • (WeierstrassCurve.Affine.Point.some hGns)) =
      a • (b • (WeierstrassCurve.Affine.Point.some hGns)) := by
    rw [← mul_nsmul _ a b, ← mul_nsmul _ b a, Nat.mul_comm]
  rw [hsw] at hS2C
  have hPQ : Point.mulE a (Point.mulE b secp.generator) =
      Point.mulE b (Point.mulE a secp.generator) :=
    Corr_inj _ hS1 hS2 hS1C hS2C
  simp only [ecdh, generate_pubkey]
  simp only [hPQ]

end Ecc
